import Mathlib

/-
  Verification development for scripts/fix-unused-manual.py.

  The script reads an ESLint JSON report, and for each file entry rewrites
  the referenced lines, renaming each reported unused identifier by
  inserting an underscore before it.  Strings are modelled as `List Char`;
  Python regular-expression constructs used by the script (word boundaries,
  whitespace classes, literal alternation) are embedded as executable
  scanners over character lists.  Word characters are modelled as ASCII
  alphanumerics plus the underscore (the ASCII fragment of Python's word
  class, which is the fragment exercised by the script's inputs).
-/

namespace FixUnused

/-- The single-quote character (codepoint 39). -/
def sq : Char := Char.ofNat 39

/-- The left-brace character (codepoint 123). -/
def lbrace : Char := Char.ofNat 123

/-- The left-parenthesis character (codepoint 40). -/
def lpar : Char := Char.ofNat 40

/-- The right-parenthesis character (codepoint 41). -/
def rpar : Char := Char.ofNat 41

/-- A line of text, as a list of characters. -/
abbrev Line := List Char

/-- Word characters, as in the regex class used by the script. -/
def wordChar (c : Char) : Bool := c.isAlphanum || c = '_'

/-- Whitespace characters recognised by Python's regex class and str.strip. -/
def pySpace (c : Char) : Bool :=
  c = ' ' || c = Char.ofNat 9 || c = Char.ofNat 10 || c = Char.ofNat 13 ||
  c = Char.ofNat 12 || c = Char.ofNat 11

/-- Whether an optional character (a position just outside the text counts
as absent) is a word character. -/
def wordOpt : Option Char → Bool
  | some c => wordChar c
  | none => false

/-- A regex word boundary sits between a word and a non-word position. -/
def boundary (a b : Option Char) : Bool := wordOpt a != wordOpt b

/-- Literal list-of-characters matching at the start of the text. -/
def isPre : Line → Line → Bool
  | [], _ => true
  | _ :: _, [] => false
  | a :: as, b :: bs => a == b && isPre as bs

/-- Python substring containment (the `in` operator on strings). -/
def hasSub (n : Line) : Line → Bool
  | [] => isPre n []
  | c :: cs => isPre n (c :: cs) || hasSub n cs

/-- Last character of a scanned chunk, falling back to the previous one. -/
def lastO (p : Option Char) : Line → Option Char
  | [] => p
  | c :: cs => lastO (some c) cs

/-- Whole-word match of the literal `v` at the current position: the text
starts with `v` and there is a word boundary on both sides.  `prev` is the
character just before the current position in the original text. -/
def matchWordAt (v : Line) (prev : Option Char) (s : Line) : Bool :=
  isPre v s && boundary prev v.head? && boundary v.getLast? (s.drop v.length).head?

/-- Scanner for `re.sub` with a whole-word pattern: at each position of the
original text, if the pattern matches, emit the replacement `w` and skip the
matched characters; otherwise copy one character.  The counter argument says
how many already-matched characters remain to be skipped. -/
def swGo (v w : Line) : Nat → Option Char → Line → Line
  | _, _, [] => []
  | Nat.succ k, _, c :: cs => swGo v w k (some c) cs
  | 0, prev, c :: cs =>
    if matchWordAt v prev (c :: cs) then
      w ++ swGo v w (v.length - 1) (some c) cs
    else
      c :: swGo v w 0 (some c) cs

/-- `re.sub(rf'\b{re.escape(v)}\b', '_' + v, s)` from the script. -/
def subWord (v s : Line) : Line := swGo v ('_' :: v) 0 none s

/-- The literal token `catch`. -/
def catchTok : Line := ("catch").toList

/-- Given the text `r` just after the opening parenthesis, try to match
`\s*v\s*\)` consuming exactly `k` leading whitespace characters, and return
the number of characters consumed on success. -/
def tryAfterV (v r : Line) (k : Nat) : Option Nat :=
  if (r.take k).all pySpace && isPre v (r.drop k) then
    let r2 := r.drop (k + v.length)
    let t := (r2.takeWhile pySpace).length
    if (r2.drop t).head? == some rpar then some (k + v.length + t + 1) else none
  else none

/-- Backtracking over the number of whitespace characters consumed before
`v`, greedily from `k` down to `0`, as the regex engine does. -/
def tryKs (v r : Line) : Nat → Option Nat
  | 0 => tryAfterV v r 0
  | Nat.succ k =>
    match tryAfterV v r (Nat.succ k) with
    | some n => some n
    | none => tryKs v r k

/-- Match of `\bcatch\s*\(\s*v\s*\)` at the current position, returning the
total number of characters consumed. -/
def matchCatchLen (v : Line) (prev : Option Char) (s : Line) : Option Nat :=
  if boundary prev (some 'c') && isPre catchTok s then
    let r0 := s.drop 5
    let j := (r0.takeWhile pySpace).length
    match r0.drop j with
    | c :: r =>
      if c == lpar then
        match tryKs v r ((r.takeWhile pySpace).length) with
        | some n => some (6 + j + n)
        | none => none
      else none
    | [] => none
  else none

/-- The replacement text `catch (_v)` used by the catch-clause strategy. -/
def catchRep (v : Line) : Line := ("catch (_").toList ++ v ++ [rpar]

/-- Scanner for `re.sub` with the catch-clause pattern. -/
def scGo (v : Line) : Nat → Option Char → Line → Line
  | _, _, [] => []
  | Nat.succ k, _, c :: cs => scGo v k (some c) cs
  | 0, prev, c :: cs =>
    match matchCatchLen v prev (c :: cs) with
    | some n => catchRep v ++ scGo v (n - 1) (some c) cs
    | none => c :: scGo v 0 (some c) cs

/-- `re.sub(rf'\bcatch\s*\(\s*{re.escape(v)}\s*\)', f'catch (_{v})', s)`. -/
def subCatch (v s : Line) : Line := scGo v 0 none s

/-- The literal token `function`. -/
def functionTok : Line := ("function").toList

/-- The literal token `async`. -/
def asyncTok : Line := ("async").toList

/-- The literal token `async` followed by a space. -/
def asyncSpTok : Line := ("async ").toList

/-- The literal token `import`. -/
def importTok : Line := ("import").toList

/-- The literal token `import *`. -/
def importStarTok : Line := ("import *").toList

/-- The literal arrow token. -/
def arrowTok : Line := ("=>").toList

/-- The literal token `const`. -/
def constTok : Line := ("const").toList

/-- The literal token `let`. -/
def letTok : Line := ("let").toList

/-- The literal token `var`. -/
def varTok : Line := ("var").toList

/-- The marker text tested against the diagnostic message. -/
def phraseAllowed : Line := ("Allowed unused caught errors").toList

/-- Match of `function\s+\w+\s*\(` at the start of `s`. -/
def funcCore (s : Line) : Bool :=
  isPre functionTok s &&
  (let r1 := s.drop 8
   let a := (r1.takeWhile pySpace).length
   (decide (1 ≤ a)) &&
   (let r2 := r1.drop a
    let b := (r2.takeWhile wordChar).length
    (decide (1 ≤ b)) &&
    (let r3 := r2.drop b
     ((r3.drop (r3.takeWhile pySpace).length).head? == some lpar))))

/-- Match of `\b(async\s+)?function\s+\w+\s*\(` at the current position. -/
def funcSigAt (prev : Option Char) (s : Line) : Bool :=
  (boundary prev (some 'a') && isPre asyncTok s &&
    (let r := s.drop 5
     let a := (r.takeWhile pySpace).length
     (decide (1 ≤ a)) && funcCore (r.drop a))) ||
  (boundary prev (some 'f') && funcCore s)

/-- `re.search` of the function-signature pattern over the whole line. -/
def searchFS : Option Char → Line → Bool
  | _, [] => false
  | prev, c :: cs => funcSigAt prev (c :: cs) || searchFS (some c) cs

/-- Search for a whole-word occurrence of the literal `t`. -/
def searchW (t : Line) : Option Char → Line → Bool
  | _, [] => false
  | prev, c :: cs => matchWordAt t prev (c :: cs) || searchW t (some c) cs

/-- `re.search(r'\b(const|let|var)\b', line)`. -/
def searchDecl (s : Line) : Bool :=
  searchW constTok none s || searchW letTok none s || searchW varTok none s

/-- Python `str.strip()` on a line. -/
def pyStrip (s : Line) : Line :=
  ((s.dropWhile pySpace).reverse.dropWhile pySpace).reverse

/-- The replacement-strategy dispatch of the script (source lines 44-60):
catch-clause branch, import branch, function-signature branch, declaration
branch, and the fallback, applied to one line for variable `v`. -/
def applyMsgToLine (line v message : Line) : Line :=
  if hasSub catchTok line && hasSub phraseAllowed message then
    subCatch v line
  else if hasSub importTok line && (hasSub [lbrace] line || hasSub importStarTok line) then
    subWord v line
  else if searchFS none line || hasSub arrowTok line || isPre asyncSpTok (pyStrip line) then
    subWord v line
  else if searchDecl line then
    subWord v line
  else
    subWord v line

/-- Tail of the diagnostic-message pattern: defined-but-never-used. -/
def usedTail1 : Line := (" is defined but never used").toList

/-- Tail of the diagnostic-message pattern: assigned-but-never-used. -/
def usedTail2 : Line := (" is assigned a value but never used").toList

/-- Attempted match of the message pattern at the current position: a
quote, one or more non-quote characters, a quote, then one of the two
usage phrases.  Returns the quoted variable name. -/
def nameAt : Line → Option Line
  | [] => none
  | c :: rest =>
    if c == sq then
      let run := rest.takeWhile (fun d => !(d == sq))
      match rest.drop run.length with
      | d :: rest3 =>
        if d == sq && !run.isEmpty && (isPre usedTail1 rest3 || isPre usedTail2 rest3) then
          some run
        else none
      | [] => none
    else none

/-- `re.search` for the variable-name pattern over the message text,
returning the first (leftmost) captured name. -/
def findVarName : Line → Option Line
  | [] => none
  | c :: cs =>
    match nameAt (c :: cs) with
    | some v => some v
    | none => findVarName cs

/-- One diagnostic message: a 1-based line number (an arbitrary integer, as
in the JSON report) and the message text. -/
structure Msg where
  line : Int
  message : Line
deriving DecidableEq

/-- Processing state for one file: the line buffer and the running count of
applied fixes. -/
structure St where
  buf : List Line
  total : Nat
deriving DecidableEq

/-- Python list-index resolution: non-negative indices address from the
front, negative indices address from the back, out-of-range indices fail. -/
def pyResolve (len : Nat) (i : Int) : Option Nat :=
  if 0 ≤ i then (if i < (len : Int) then some i.toNat else none)
  else (if 0 ≤ i + (len : Int) then some (i + (len : Int)).toNat else none)

/-- Python `lines[i]` (an out-of-range access raises, modelled as `none`). -/
def pyGet (xs : List Line) (i : Int) : Option Line :=
  match pyResolve xs.length i with
  | some k => xs.get? k
  | none => none

/-- Python `lines[i] = a` (only used after a successful read). -/
def pySet (xs : List Line) (i : Int) (a : Line) : List Line :=
  match pyResolve xs.length i with
  | some k => xs.set k a
  | none => xs

/-- Processing of one diagnostic message (source lines 26-65): parse the
variable name out of the message, skip names already starting with an
underscore, read the target line (a failed index raises, aborting), apply
the strategy dispatch, and count and store the line only if it changed. -/
def processMsg (st : St) (m : Msg) : Except Unit St :=
  match findVarName m.message with
  | none => .ok st
  | some v =>
    if v.head? == some '_' then .ok st
    else
      match pyGet st.buf (m.line - 1) with
      | none => .error ()
      | some line =>
        let nl := applyMsgToLine line v m.message
        if nl == line then .ok st
        else .ok ⟨pySet st.buf (m.line - 1) nl, st.total + 1⟩

/-- Stable insertion keeping line numbers in non-increasing order. -/
def insertDesc (m : Msg) : List Msg → List Msg
  | [] => [m]
  | x :: xs => if m.line < x.line then x :: insertDesc m xs else m :: x :: xs

/-- Python `sorted(messages, key=lambda x: x['line'], reverse=True)`:
a stable sort into non-increasing line-number order. -/
def sortDesc : List Msg → List Msg
  | [] => []
  | m :: ms => insertDesc m (sortDesc ms)

/-- Per-file processing (source lines 23-65): sort the messages by line
number descending, then process them in order, starting from the running
fix total `t`. -/
def processFile (lines : List Line) (msgs : List Msg) (t : Nat) : Except Unit St :=
  (sortDesc msgs).foldlM processMsg ⟨lines, t⟩

/-- One file entry of the report. -/
structure FileData where
  filePath : String
  messages : List Msg

/-- The file system: paths mapped to file contents, `none` marking a file
that cannot be opened. -/
abbrev FS := List (String × Option (List Line))

/-- Opening a file for reading. -/
def readFS (fs : FS) (p : String) : Option (List Line) :=
  match fs.find? (fun e => e.1 == p) with
  | some e => e.2
  | none => none

/-- Writing a file back. -/
def writeFS (fs : FS) (p : String) (b : List Line) : FS :=
  fs.map (fun e => if e.1 == p then (e.1, some b) else e)

/-- The file loop (source lines 16-70).  There is no exception handling in
the script, so a failed file read or a raised index error terminates the
whole run, leaving the files written so far in place. -/
def runEntries (fs : FS) (t : Nat) : List FileData → FS × Except Unit Nat
  | [] => (fs, .ok t)
  | fd :: rest =>
    match readFS fs fd.filePath with
    | none => (fs, .error ())
    | some lines =>
      match processFile lines fd.messages t with
      | .error e => (fs, .error e)
      | .ok st => runEntries (writeFS fs fd.filePath st.buf) st.total rest

/-- The whole run (source lines 10-72): load the report, then process the
file entries; a report that cannot be loaded or parsed aborts immediately. -/
def run (report : Except Unit (List FileData)) (fs : FS) : FS × Except Unit Nat :=
  match report with
  | .error _ => (fs, .error ())
  | .ok fds => runEntries fs 0 fds

/-- Search for an actual catch-clause pattern occurrence on the line. -/
def hasCatchPat (v : Line) : Option Char → Line → Bool
  | _, [] => false
  | prev, c :: cs => (matchCatchLen v prev (c :: cs)).isSome || hasCatchPat v (some c) cs

/-- Strategy dispatch as the specification words it: the catch-clause
strategy is selected exactly when the line contains a catch-clause pattern
`catch ( v )` and the message contains the marker phrase; otherwise the
remaining strategies all perform the whole-word replacement.  This
definition follows the specification text and is compared against
`applyMsgToLine`, which follows the source. -/
def applyMsgSpec (line v message : Line) : Line :=
  if hasCatchPat v none line && hasSub phraseAllowed message then
    subCatch v line
  else
    subWord v line

/-- No whole-word occurrence of `v` anywhere in the text, scanning with the
given previous character. -/
def noM (v : Line) : Option Char → Line → Bool
  | _, [] => true
  | prev, c :: cs => !matchWordAt v prev (c :: cs) && noM v (some c) cs

/-- A benign diagnostic message: every name it parses to is a nonempty
all-word-character identifier (as every name emitted by ESLint is). -/
def goodM (m : Msg) : Prop :=
  ∀ v, findVarName m.message = some v → v ≠ [] ∧ v.all wordChar = true

/-- No catch-clause pattern occurrence of `v` anywhere in the text,
scanning with the given previous character. -/
def noC (v : Line) : Option Char → Line → Bool
  | _, [] => true
  | prev, c :: cs => !(matchCatchLen v prev (c :: cs)).isSome && noC v (some c) cs

/-- Invariant of the line targeted by one processed message with parsed
name `v`: either no whole-word occurrence of `v` is left on the line, or
(after the catch-clause strategy ran) no catch-clause occurrence of `v` is
left while the line still contains the `catch` substring and the message
carries the marker phrase. -/
def msgInv (m : Msg) (v : Line) (L : Line) : Prop :=
  noM v none L = true ∨
  (noC v none L = true ∧ hasSub catchTok L = true ∧
    hasSub phraseAllowed m.message = true)

/-! Basic facts about the embedded operations. -/

theorem pyGet_none_of_ge (xs : List Line) (i : Int) (h : (xs.length : Int) ≤ i) :
    pyGet xs i = none := by
  have h0 : (0 : Int) ≤ i := le_trans (Int.ofNat_nonneg _) h
  simp only [pyGet, pyResolve, if_pos h0, if_neg (not_lt.mpr h)]

theorem pySet_length (xs : List Line) (i : Int) (a : Line) :
    (pySet xs i a).length = xs.length := by
  unfold pySet
  cases pyResolve xs.length i with
  | none => rfl
  | some k => simp [List.length_set]

theorem processMsg_length (st st' : St) (m : Msg) (h : processMsg st m = .ok st') :
    st'.buf.length = st.buf.length := by
  unfold processMsg at h
  cases hf : findVarName m.message with
  | none =>
    rw [hf] at h
    cases h
    rfl
  | some v =>
    rw [hf] at h
    dsimp only at h
    by_cases hu : (v.head? == some '_') = true
    · rw [if_pos hu] at h
      cases h
      rfl
    · rw [if_neg hu] at h
      cases hg : pyGet st.buf (m.line - 1) with
      | none => rw [hg] at h; cases h
      | some line =>
        rw [hg] at h
        dsimp only at h
        by_cases he : (applyMsgToLine line v m.message == line) = true
        · rw [if_pos he] at h
          cases h
          rfl
        · rw [if_neg he] at h
          cases h
          simp [pySet_length]

theorem foldlM_processMsg_length (ms : List Msg) :
    ∀ st st' : St, List.foldlM processMsg st ms = .ok st' →
      st'.buf.length = st.buf.length := by
  induction ms with
  | nil =>
    intro st st' h
    cases h
    rfl
  | cons m ms ih =>
    intro st st' h
    rw [List.foldlM_cons] at h
    cases hm : processMsg st m with
    | error e => rw [hm] at h; cases h
    | ok stA =>
      rw [hm] at h
      exact (ih stA st' h).trans (processMsg_length st stA m hm)

theorem processFile_length (lines : List Line) (msgs : List Msg) (t : Nat) (st' : St)
    (h : processFile lines msgs t = .ok st') : st'.buf.length = lines.length :=
  foldlM_processMsg_length (sortDesc msgs) ⟨lines, t⟩ st' h

/-! ### Claim C7: a report-load failure aborts before any file is touched -/

/-- C7: if the diagnostics report cannot be located or parsed, the run
aborts with an error and the file system is returned unmodified: no target
file is read or written. -/
theorem C7_report_load_failure_aborts (fs : FS) :
    run (.error ()) fs = (fs, .error ()) := rfl

/-! ### Claim C1: failure on one file is NOT scoped to that file -/

/-- C1 counterexample: with file `B` unreadable and listed before file `A`,
the run aborts at `B` and the applicable fix for `A` is never applied, even
though processing `A` alone would rewrite it.  This falsifies the claim
that fixes for every other file still apply. -/
theorem C1_counterexample :
    runEntries [("B", none), ("A", some [("const alpha = 1;").toList])] 0
      [⟨"B", [⟨1, sq :: ("beta").toList ++ sq :: usedTail1⟩]⟩,
       ⟨"A", [⟨1, sq :: ("alpha").toList ++ sq :: usedTail1⟩]⟩] =
      ([("B", none), ("A", some [("const alpha = 1;").toList])], .error ()) ∧
    processFile [("const alpha = 1;").toList]
      [⟨1, sq :: ("alpha").toList ++ sq :: usedTail1⟩] 0 =
      .ok ⟨[("const _alpha = 1;").toList], 1⟩ ∧
    ("const _alpha = 1;").toList ≠ ("const alpha = 1;").toList := by
  refine ⟨rfl, rfl, by decide⟩

theorem runEntries_cons_read_fail (fs : FS) (t : Nat) (fd : FileData)
    (rest : List FileData) (h : readFS fs fd.filePath = none) :
    runEntries fs t (fd :: rest) = (fs, .error ()) := by
  unfold runEntries
  rw [h]

/-- C1 amended: a failure to read a target file aborts the entire run at
that entry (the script has no exception handling): entries processed
earlier keep their already-written fixes, while the failing entry and every
later entry leave their files unmodified. -/
theorem C1_amended_read_failure_aborts_run (fds1 : List FileData) :
    ∀ (fs : FS) (t : Nat) (fd : FileData) (fds2 : List FileData) (fs' : FS) (t' : Nat),
      runEntries fs t fds1 = (fs', .ok t') →
      readFS fs' fd.filePath = none →
      runEntries fs t (fds1 ++ fd :: fds2) = (fs', .error ()) := by
  induction fds1 with
  | nil =>
    intro fs t fd fds2 fs' t' h1 h2
    unfold runEntries at h1
    cases h1
    simpa using runEntries_cons_read_fail fs t fd fds2 h2
  | cons fd0 fds1 ih =>
    intro fs t fd fds2 fs' t' h1 h2
    rw [List.cons_append]
    unfold runEntries at h1 ⊢
    cases hr : readFS fs fd0.filePath with
    | none =>
      rw [hr] at h1
      cases h1
    | some lines =>
      rw [hr] at h1
      dsimp only at h1 ⊢
      cases hp : processFile lines fd0.messages t with
      | error e =>
        rw [hp] at h1
        cases h1
      | ok st =>
        rw [hp] at h1
        dsimp only at h1 ⊢
        exact ih _ _ fd fds2 fs' t' h1 h2

/-- C1 amended, witness: a concrete run in which file `A` is fixed and
written, and the following unreadable file `B` aborts the rest. -/
theorem C1_amended_witness :
    runEntries [("A", some [("const alpha = 1;").toList]), ("B", none)] 0
      [⟨"A", [⟨1, sq :: ("alpha").toList ++ sq :: usedTail1⟩]⟩, ⟨"B", []⟩] =
      ([("A", some [("const _alpha = 1;").toList]), ("B", none)], .error ()) := by
  have h := C1_amended_read_failure_aborts_run
    [⟨"A", [⟨1, sq :: ("alpha").toList ++ sq :: usedTail1⟩]⟩]
    [("A", some [("const alpha = 1;").toList]), ("B", none)] 0
    ⟨"B", []⟩ []
    [("A", some [("const _alpha = 1;").toList]), ("B", none)] 1 rfl rfl
  simpa using h

/-! ### Claim C2: an out-of-range line is fatal, not a skipped no-op -/

/-- C2 counterexample: a diagnostic whose line number (2) exceeds the
buffer length (1) raises an index error that aborts processing; it is not
a skipped no-op. -/
theorem C2_counterexample :
    processMsg ⟨[("const alpha = 1;").toList], 0⟩
      ⟨2, sq :: ("alpha").toList ++ sq :: usedTail1⟩ = .error () ∧
    processMsg ⟨[("const alpha = 1;").toList], 0⟩
      ⟨2, sq :: ("alpha").toList ++ sq :: usedTail1⟩ ≠
      .ok ⟨[("const alpha = 1;").toList], 0⟩ := by
  have h : processMsg ⟨[("const alpha = 1;").toList], 0⟩
      ⟨2, sq :: ("alpha").toList ++ sq :: usedTail1⟩ = .error () := rfl
  refine ⟨h, fun hc => ?_⟩
  rw [h] at hc
  exact Except.noConfusion hc

/-- C2 amended: a diagnostic whose line number exceeds the buffer length is
a skipped no-op only if its message does not parse to a variable name or
names an underscore-prefixed variable; otherwise the out-of-range index is
fatal and aborts processing (so the file is never written back). -/
theorem C2_amended_out_of_range_fatal (st : St) (m : Msg) (v : Line)
    (hf : findVarName m.message = some v)
    (hu : (v.head? == some '_') = false)
    (hr : (st.buf.length : Int) ≤ m.line - 1) :
    processMsg st m = .error () := by
  unfold processMsg
  rw [hf]
  dsimp only
  rw [hu]
  simp only [Bool.false_eq_true, if_false]
  rw [pyGet_none_of_ge st.buf (m.line - 1) hr]

/-- C2 amended, witness: the hypotheses hold at a concrete out-of-range
message and processing indeed aborts. -/
theorem C2_amended_witness :
    processMsg ⟨[("const beta = 2;").toList], 0⟩
      ⟨3, sq :: ("beta").toList ++ sq :: usedTail1⟩ = .error () :=
  C2_amended_out_of_range_fatal ⟨[("const beta = 2;").toList], 0⟩
    ⟨3, sq :: ("beta").toList ++ sq :: usedTail1⟩ (("beta").toList)
    rfl (by decide) (by decide)

/-! ### Claim C3: the catch strategy is keyed on the substring, not the pattern -/

/-- C3 counterexample: the line `const catcher = 1;` contains the substring
`catch` but no catch-clause pattern `catch ( catcher )`.  With the marker
phrase in the message, the source selects the catch strategy and leaves the
line unchanged (no fix), whereas the dispatch described by the claim would
fall through to the declaration strategy and rewrite the line. -/
theorem C3_counterexample :
    applyMsgToLine (("const catcher = 1;").toList) (("catcher").toList)
      (sq :: ("catcher").toList ++ sq :: usedTail1 ++ (". Allowed unused caught errors").toList) =
      ("const catcher = 1;").toList ∧
    applyMsgSpec (("const catcher = 1;").toList) (("catcher").toList)
      (sq :: ("catcher").toList ++ sq :: usedTail1 ++ (". Allowed unused caught errors").toList) =
      ("const _catcher = 1;").toList ∧
    ("const _catcher = 1;").toList ≠ ("const catcher = 1;").toList ∧
    processMsg ⟨[("const catcher = 1;").toList], 0⟩
      ⟨1, sq :: ("catcher").toList ++ sq :: usedTail1 ++ (". Allowed unused caught errors").toList⟩ =
      .ok ⟨[("const catcher = 1;").toList], 0⟩ := by
  exact ⟨rfl, rfl, by decide, rfl⟩

/-- C3 amended: the catch-clause strategy is selected exactly when the line
contains the substring `catch` and the message contains the marker phrase
(if the parenthesized pattern is then absent the substitution is a no-op,
with no fallthrough to another strategy); in every other case the selected
strategy performs the whole-word replacement, the import, function-signature,
declaration and fallback branches being operationally identical. -/
theorem C3_amended_dispatch (line v message : Line) :
    applyMsgToLine line v message =
      if hasSub catchTok line && hasSub phraseAllowed message then subCatch v line
      else subWord v line := by
  unfold applyMsgToLine
  by_cases h : (hasSub catchTok line && hasSub phraseAllowed message) = true
  · rw [if_pos h, if_pos h]
  · rw [if_neg h, if_neg h]
    split_ifs <;> rfl

/-! ### Claim C5: the rewrite pass never changes the number of buffer lines -/

/-- C5: for every input buffer and message list, a completed rewrite pass
returns a buffer with exactly as many lines as the input buffer. -/
theorem C5_line_count_invariant (lines : List Line) (msgs : List Msg) (t : Nat)
    (st' : St) (h : processFile lines msgs t = .ok st') :
    st'.buf.length = lines.length :=
  processFile_length lines msgs t st' h

/-- C5 witness: the invariant at a concrete one-line buffer. -/
theorem C5_witness :
    (⟨[("const _alpha = 1;").toList], 1⟩ : St).buf.length =
      ([("const alpha = 1;").toList] : List Line).length :=
  C5_line_count_invariant [("const alpha = 1;").toList]
    [⟨1, sq :: ("alpha").toList ++ sq :: usedTail1⟩] 0
    ⟨[("const _alpha = 1;").toList], 1⟩ rfl

/-! ### Claim C8: the counter counts exactly the buffer-changing substitutions -/

/-- C8: a substitution attempt that leaves the target line unchanged does
not modify the buffer and does not increment the fix counter; and every
processed message either leaves both buffer and counter untouched or
changes the buffer and increments the counter by exactly one, so the final
total counts exactly the line-changing substitutions. -/
theorem C8_count_changing_substitutions :
    (∀ (b : List Line) (t : Nat) (m : Msg) (v line : Line),
      findVarName m.message = some v → (v.head? == some '_') = false →
      pyGet b (m.line - 1) = some line → applyMsgToLine line v m.message = line →
      processMsg ⟨b, t⟩ m = .ok ⟨b, t⟩) ∧
    (∀ (b : List Line) (t : Nat) (m : Msg) (b' : List Line) (t' : Nat),
      processMsg ⟨b, t⟩ m = .ok ⟨b', t'⟩ → (b' = b ∧ t' = t) ∨ (b' ≠ b ∧ t' = t + 1)) := by
  constructor
  · intro b t m v line hf hu hg he
    unfold processMsg
    rw [hf]
    dsimp only
    rw [hu]
    simp only [Bool.false_eq_true, if_false]
    rw [hg]
    dsimp only
    rw [he]
    simp
  · intro b t m b' t' h
    unfold processMsg at h
    cases hf : findVarName m.message with
    | none =>
      rw [hf] at h
      cases h
      exact Or.inl ⟨rfl, rfl⟩
    | some v =>
      rw [hf] at h
      dsimp only at h
      by_cases hu : (v.head? == some '_') = true
      · rw [if_pos hu] at h
        cases h
        exact Or.inl ⟨rfl, rfl⟩
      · rw [if_neg hu] at h
        cases hg : pyGet b (m.line - 1) with
        | none => rw [hg] at h; cases h
        | some line =>
          rw [hg] at h
          dsimp only at h
          by_cases he : (applyMsgToLine line v m.message == line) = true
          · rw [if_pos he] at h
            cases h
            exact Or.inl ⟨rfl, rfl⟩
          · rw [if_neg he] at h
            cases h
            refine Or.inr ⟨?_, rfl⟩
            have hne : applyMsgToLine line v m.message ≠ line := by
              intro hq
              rw [hq] at he
              simp at he
            unfold pyGet at hg
            cases hk : pyResolve b.length (m.line - 1) with
            | none => rw [hk] at hg; cases hg
            | some k =>
              rw [hk] at hg
              dsimp only at hg
              have hlt : k < b.length := (List.get?_eq_some.mp hg).1
              intro hb
              have hth : (pySet b (m.line - 1) (applyMsgToLine line v m.message)).get? k = b.get? k := by
                rw [hb]
              rw [hg] at hth
              unfold pySet at hth
              rw [hk] at hth
              dsimp only at hth
              rw [List.get?_set_eq_of_lt _ hlt] at hth
              exact hne (Option.some.inj hth)

/-- C8 witness: a stale diagnostic (its variable does not occur on the
line) leaves the buffer and the counter unchanged. -/
theorem C8_witness :
    processMsg ⟨[("const result = compute();").toList], 0⟩
      ⟨1, sq :: ("stale").toList ++ sq :: usedTail1⟩ =
      .ok ⟨[("const result = compute();").toList], 0⟩ :=
  C8_count_changing_substitutions.1 [("const result = compute();").toList] 0
    ⟨1, sq :: ("stale").toList ++ sq :: usedTail1⟩ (("stale").toList)
    (("const result = compute();").toList) rfl (by decide) rfl rfl

/-! ### Claim C9: nonpositive line numbers address lines from the end -/

/-- C9: a diagnostic whose line field makes the 0-based index negative but
within Python's negative-indexing range is not skipped or rejected: the
substitution is attempted on the line addressed from the end of the buffer
(for line field 0, the last line). -/
theorem C9_negative_index_targets_from_end (lines : List Line) (t : Nat) (m : Msg)
    (v : Line) (hf : findVarName m.message = some v)
    (hu : (v.head? == some '_') = false)
    (hneg : m.line - 1 < 0) (hin : 0 ≤ m.line - 1 + (lines.length : Int)) :
    ∃ line, lines.get? (m.line - 1 + (lines.length : Int)).toNat = some line ∧
      processMsg ⟨lines, t⟩ m =
        (if applyMsgToLine line v m.message == line then .ok ⟨lines, t⟩
         else .ok ⟨lines.set (m.line - 1 + (lines.length : Int)).toNat
                     (applyMsgToLine line v m.message), t + 1⟩) := by
  have hres : pyResolve lines.length (m.line - 1) =
      some (m.line - 1 + (lines.length : Int)).toNat := by
    unfold pyResolve
    rw [if_neg (not_le.mpr hneg), if_pos hin]
  have hlt : (m.line - 1 + (lines.length : Int)).toNat < lines.length := by
    omega
  obtain ⟨line, hline⟩ : ∃ line,
      lines.get? (m.line - 1 + (lines.length : Int)).toNat = some line :=
    ⟨lines.get ⟨_, hlt⟩, List.get?_eq_get hlt⟩
  refine ⟨line, hline, ?_⟩
  unfold processMsg
  rw [hf]
  dsimp only
  rw [hu]
  simp only [Bool.false_eq_true, if_false]
  have hg : pyGet lines (m.line - 1) = some line := by
    unfold pyGet
    rw [hres]
    exact hline
  rw [hg]
  dsimp only
  have hs : pySet lines (m.line - 1) (applyMsgToLine line v m.message) =
      lines.set (m.line - 1 + (lines.length : Int)).toNat
        (applyMsgToLine line v m.message) := by
    unfold pySet
    rw [hres]
  by_cases he : (applyMsgToLine line v m.message == line) = true
  · rw [if_pos he, if_pos he]
  · rw [if_neg he, if_neg he, hs]

/-- C9 witness: a line field of 0 on a two-line buffer resolves to index 1
(the last line) and the substitution is attempted there. -/
theorem C9_witness :
    ∃ line, ([("const alpha = 1;").toList, ("const beta = 2;").toList] : List Line).get?
        ((0 : Int) - 1 + ((2 : Nat) : Int)).toNat = some line ∧
      processMsg ⟨[("const alpha = 1;").toList, ("const beta = 2;").toList], 0⟩
        ⟨0, sq :: ("beta").toList ++ sq :: usedTail1⟩ =
        (if applyMsgToLine line (("beta").toList)
              (sq :: ("beta").toList ++ sq :: usedTail1) == line then
           .ok ⟨[("const alpha = 1;").toList, ("const beta = 2;").toList], 0⟩
         else
           .ok ⟨[("const alpha = 1;").toList, ("const beta = 2;").toList].set
                  ((0 : Int) - 1 + ((2 : Nat) : Int)).toNat
                  (applyMsgToLine line (("beta").toList)
                    (sq :: ("beta").toList ++ sq :: usedTail1)), 0 + 1⟩) :=
  C9_negative_index_targets_from_end
    [("const alpha = 1;").toList, ("const beta = 2;").toList] 0
    ⟨0, sq :: ("beta").toList ++ sq :: usedTail1⟩ (("beta").toList)
    rfl (by decide) (by decide) (by decide)

/-! ### Sorting lemmas for the per-file message order -/

theorem insertDesc_perm (m : Msg) (l : List Msg) : (insertDesc m l).Perm (m :: l) := by
  induction l with
  | nil => exact List.Perm.refl _
  | cons x xs ih =>
    unfold insertDesc
    by_cases h : m.line < x.line
    · rw [if_pos h]
      exact (ih.cons x).trans (List.Perm.swap m x xs)
    · rw [if_neg h]

theorem sortDesc_perm (l : List Msg) : (sortDesc l).Perm l := by
  induction l with
  | nil => exact List.Perm.refl _
  | cons m ms ih =>
    unfold sortDesc
    exact (insertDesc_perm m (sortDesc ms)).trans (ih.cons m)

theorem insertDesc_sorted (m : Msg) (l : List Msg)
    (h : List.Pairwise (fun a b : Msg => b.line ≤ a.line) l) :
    List.Pairwise (fun a b : Msg => b.line ≤ a.line) (insertDesc m l) := by
  induction l with
  | nil => simp [insertDesc]
  | cons x xs ih =>
    rw [List.pairwise_cons] at h
    obtain ⟨hx, hxs⟩ := h
    unfold insertDesc
    by_cases hlt : m.line < x.line
    · rw [if_pos hlt]
      rw [List.pairwise_cons]
      refine ⟨?_, ih hxs⟩
      intro y hy
      rcases List.mem_cons.mp ((insertDesc_perm m xs).mem_iff.mp hy) with hy1 | hy1
      · exact hy1 ▸ le_of_lt hlt
      · exact hx y hy1
    · rw [if_neg hlt]
      rw [List.pairwise_cons]
      refine ⟨?_, List.pairwise_cons.mpr ⟨hx, hxs⟩⟩
      intro y hy
      rcases List.mem_cons.mp hy with hy1 | hy1
      · exact hy1 ▸ not_lt.mp hlt
      · exact le_trans (hx y hy1) (not_lt.mp hlt)

theorem sortDesc_sorted (l : List Msg) :
    List.Pairwise (fun a b : Msg => b.line ≤ a.line) (sortDesc l) := by
  induction l with
  | nil => simp [sortDesc]
  | cons m ms ih => exact insertDesc_sorted m (sortDesc ms) ih

theorem insertDesc_filter (m : Msg) (l : List Msg) (t : Int) :
    (insertDesc m l).filter (fun x => x.line == t) =
      (if m.line == t then m :: l.filter (fun x => x.line == t)
       else l.filter (fun x => x.line == t)) := by
  induction l with
  | nil =>
    by_cases hm : (m.line == t) = true
    · simp [insertDesc, List.filter, hm]
    · simp [insertDesc, List.filter, hm]
  | cons x xs ih =>
    unfold insertDesc
    by_cases hlt : m.line < x.line
    · rw [if_pos hlt]
      by_cases hm : (m.line == t) = true
      · have hx : (x.line == t) = false := by
          refine beq_eq_false_iff_ne.mpr ?_
          have hmt : m.line = t := eq_of_beq hm
          omega
        rw [List.filter_cons, hx, if_pos hm]
        simp only [Bool.false_eq_true, if_false]
        rw [ih, if_pos hm, List.filter_cons, hx]
        simp only [Bool.false_eq_true, if_false]
      · rw [List.filter_cons, if_neg hm, ih, if_neg hm, List.filter_cons]
    · rw [if_neg hlt, List.filter_cons]

theorem sortDesc_filter_stable (l : List Msg) (t : Int) :
    (sortDesc l).filter (fun x => x.line == t) = l.filter (fun x => x.line == t) := by
  induction l with
  | nil => rfl
  | cons m ms ih =>
    unfold sortDesc
    rw [insertDesc_filter, List.filter_cons]
    by_cases hm : (m.line == t) = true
    · rw [if_pos hm, if_pos hm, ih]
    · rw [if_neg hm, if_neg hm, ih]

/-! ### Frame lemmas: a message only writes its own resolved index -/

theorem processMsg_frame (st stA : St) (m : Msg) (h : processMsg st m = .ok stA)
    (k : Nat) (hk : pyResolve st.buf.length (m.line - 1) ≠ some k) :
    stA.buf.get? k = st.buf.get? k := by
  unfold processMsg at h
  cases hf : findVarName m.message with
  | none =>
    rw [hf] at h
    cases h
    rfl
  | some v =>
    rw [hf] at h
    dsimp only at h
    by_cases hu : (v.head? == some '_') = true
    · rw [if_pos hu] at h
      cases h
      rfl
    · rw [if_neg hu] at h
      cases hg : pyGet st.buf (m.line - 1) with
      | none => rw [hg] at h; cases h
      | some line =>
        rw [hg] at h
        dsimp only at h
        by_cases he : (applyMsgToLine line v m.message == line) = true
        · rw [if_pos he] at h
          cases h
          rfl
        · rw [if_neg he] at h
          cases h
          show (pySet st.buf (m.line - 1) _).get? k = _
          unfold pySet
          cases hres : pyResolve st.buf.length (m.line - 1) with
          | none => rfl
          | some k' =>
            dsimp only
            exact List.get?_set_ne _ _ (fun hek => hk (hek ▸ hres))

theorem foldlM_processMsg_frame (ms : List Msg) :
    ∀ (st st' : St), List.foldlM processMsg st ms = .ok st' →
      ∀ k : Nat, (∀ m ∈ ms, pyResolve st.buf.length (m.line - 1) ≠ some k) →
        st'.buf.get? k = st.buf.get? k := by
  induction ms with
  | nil =>
    intro st st' h k _
    cases h
    rfl
  | cons m ms ih =>
    intro st st' h k hk
    rw [List.foldlM_cons] at h
    cases hm : processMsg st m with
    | error e => rw [hm] at h; cases h
    | ok stA =>
      rw [hm] at h
      have hlen : stA.buf.length = st.buf.length := processMsg_length st stA m hm
      have h2 : st'.buf.get? k = stA.buf.get? k := by
        refine ih stA st' h k ?_
        intro m' hm'
        rw [hlen]
        exact hk m' (List.mem_cons_of_mem _ hm')
      rw [h2]
      exact processMsg_frame st stA m hm k (hk m (List.mem_cons_self _ _))

/-! ### Claim C10: untargeted lines are written back unchanged (amended) -/

/-- C10 counterexample: a diagnostic with line field 0 rewrites buffer line
2 (Python negative indexing), even though no message has line field 2;
so a line whose 1-based number differs from every message's line field can
still change. -/
theorem C10_counterexample :
    processFile [("const alpha = 1;").toList, ("const beta = 2;").toList]
      [⟨0, sq :: ("beta").toList ++ sq :: usedTail1⟩] 0 =
      .ok ⟨[("const alpha = 1;").toList, ("const _beta = 2;").toList], 1⟩ ∧
    ("const _beta = 2;").toList ≠ ("const beta = 2;").toList ∧
    ((0 : Int) ≠ 2) :=
  ⟨rfl, by decide, by decide⟩

/-- C10 amended: after a completed pass, every buffer position that is not
the Python-resolved target index of any diagnostic message of the entry
(the line field minus one for non-negative indices, counted from the end
for in-range negative ones) holds exactly the line that was read. -/
theorem C10_amended_frame (lines : List Line) (msgs : List Msg) (t : Nat) (st' : St)
    (h : processFile lines msgs t = .ok st') (k : Nat)
    (hk : ∀ m ∈ msgs, pyResolve lines.length (m.line - 1) ≠ some k) :
    st'.buf.get? k = lines.get? k := by
  refine foldlM_processMsg_frame (sortDesc msgs) ⟨lines, t⟩ st' h k ?_
  intro m hm
  exact hk m ((sortDesc_perm msgs).mem_iff.mp hm)

/-- C10 amended, witness: with the single message targeting index 1, the
line at index 0 is unchanged by a concrete pass. -/
theorem C10_amended_witness :
    (⟨[("const alpha = 1;").toList, ("const _beta = 2;").toList], 1⟩ : St).buf.get? 0 =
      ([("const alpha = 1;").toList, ("const beta = 2;").toList] : List Line).get? 0 := by
  refine C10_amended_frame
    [("const alpha = 1;").toList, ("const beta = 2;").toList]
    [⟨2, sq :: ("beta").toList ++ sq :: usedTail1⟩] 0
    ⟨[("const alpha = 1;").toList, ("const _beta = 2;").toList], 1⟩ rfl 0 ?_
  intro m hm
  rw [List.mem_singleton] at hm
  subst hm
  decide

/-! ### Claim C6: processing order and non-interference (amended) -/

/-- C6 counterexample: two messages with equal line numbers are processed
in an order that is not strictly descending (the tie is kept in report
order); and the two line fields 1 and 0 on a one-line buffer resolve to the
same physical line, so the edit made for the higher line number suppresses
the substitution of the lower one (which would have changed the original
line, yet only one fix is counted). -/
theorem C6_counterexample :
    sortDesc [⟨5, sq :: ("alpha").toList ++ sq :: usedTail1⟩,
              ⟨5, sq :: ("beta").toList ++ sq :: usedTail1⟩] =
      [⟨5, sq :: ("alpha").toList ++ sq :: usedTail1⟩,
       ⟨5, sq :: ("beta").toList ++ sq :: usedTail1⟩] ∧
    ¬((5 : Int) < 5) ∧
    processFile [("const ab = 1;").toList]
      [⟨0, sq :: ("ab").toList ++ sq :: usedTail1⟩,
       ⟨1, sq :: ("ab").toList ++ sq :: usedTail1⟩] 0 =
      .ok ⟨[("const _ab = 1;").toList], 1⟩ ∧
    applyMsgToLine (("const ab = 1;").toList) (("ab").toList)
      (sq :: ("ab").toList ++ sq :: usedTail1) ≠ ("const ab = 1;").toList :=
  ⟨rfl, by decide, rfl, by decide⟩

/-- C6 amended: messages are processed in non-increasing line-number order,
ties keeping their report order — the sort is a permutation of the report
and, for every line number, the subsequence of messages carrying that line
number is exactly the one of the report, which is precisely tie stability;
and an edit applied for one message never affects the text read by another
message whose Python-resolved buffer index differs — in particular, for
distinct positive in-range line numbers, the edit at the higher line cannot
affect the substitution at the lower line. -/
theorem C6_amended_order_and_no_interference :
    (∀ msgs : List Msg,
      List.Pairwise (fun a b : Msg => b.line ≤ a.line) (sortDesc msgs) ∧
      (sortDesc msgs).Perm msgs ∧
      (∀ t : Int, (sortDesc msgs).filter (fun x => x.line == t) =
        msgs.filter (fun x => x.line == t))) ∧
    (∀ (lines : List Line) (t : Nat) (m1 m2 : Msg) (st1 : St) (i1 i2 : Nat),
      pyResolve lines.length (m1.line - 1) = some i1 →
      pyResolve lines.length (m2.line - 1) = some i2 → i1 ≠ i2 →
      processMsg ⟨lines, t⟩ m1 = .ok st1 →
      pyGet st1.buf (m2.line - 1) = pyGet lines (m2.line - 1)) := by
  constructor
  · intro msgs
    exact ⟨sortDesc_sorted msgs, sortDesc_perm msgs, sortDesc_filter_stable msgs⟩
  · intro lines t m1 m2 st1 i1 i2 h1 h2 hne hp
    have hlen : st1.buf.length = lines.length := processMsg_length _ _ _ hp
    have hfr : st1.buf.get? i2 = lines.get? i2 := by
      refine processMsg_frame ⟨lines, t⟩ st1 m1 hp i2 ?_
      show pyResolve lines.length (m1.line - 1) ≠ some i2
      rw [h1]
      exact fun hq => hne (Option.some.inj hq)
    unfold pyGet
    rw [hlen, h2]
    exact hfr

/-- C6 amended, witness: sortedness, permutation and tie stability at a
concrete report with two equal line numbers, and non-interference between
resolved indices 0 and 1 in a concrete step. -/
theorem C6_amended_witness :
    (List.Pairwise (fun a b : Msg => b.line ≤ a.line)
      (sortDesc [⟨5, sq :: ("alpha").toList ++ sq :: usedTail1⟩,
                 ⟨5, sq :: ("beta").toList ++ sq :: usedTail1⟩])) ∧
    ((sortDesc [⟨5, sq :: ("alpha").toList ++ sq :: usedTail1⟩,
                ⟨5, sq :: ("beta").toList ++ sq :: usedTail1⟩]).Perm
       [⟨5, sq :: ("alpha").toList ++ sq :: usedTail1⟩,
        ⟨5, sq :: ("beta").toList ++ sq :: usedTail1⟩]) ∧
    ((sortDesc [⟨5, sq :: ("alpha").toList ++ sq :: usedTail1⟩,
                ⟨5, sq :: ("beta").toList ++ sq :: usedTail1⟩]).filter
        (fun x => x.line == (5 : Int)) =
      ([⟨5, sq :: ("alpha").toList ++ sq :: usedTail1⟩,
        ⟨5, sq :: ("beta").toList ++ sq :: usedTail1⟩] : List Msg).filter
        (fun x => x.line == (5 : Int))) ∧
    pyGet (⟨[("const _alpha = 1;").toList, ("const beta = 2;").toList], 1⟩ : St).buf
        ((2 : Int) - 1) =
      pyGet [("const alpha = 1;").toList, ("const beta = 2;").toList] ((2 : Int) - 1) :=
  ⟨(C6_amended_order_and_no_interference.1 _).1,
   (C6_amended_order_and_no_interference.1 _).2.1,
   (C6_amended_order_and_no_interference.1 _).2.2 5,
   C6_amended_order_and_no_interference.2
     [("const alpha = 1;").toList, ("const beta = 2;").toList] 0
     ⟨1, sq :: ("alpha").toList ++ sq :: usedTail1⟩
     ⟨2, sq :: ("beta").toList ++ sq :: usedTail1⟩
     ⟨[("const _alpha = 1;").toList, ("const beta = 2;").toList], 1⟩ 0 1
     rfl rfl (by decide) rfl⟩

/-! ### Scanner lemmas for the whole-word substitution -/

theorem band_true {a b : Bool} (h : (a && b) = true) : a = true ∧ b = true := by
  constructor
  · exact Bool.and_elim_left h
  · exact Bool.and_elim_right h

theorem swGo_nil (v w : Line) (k : Nat) (prev : Option Char) :
    swGo v w k prev [] = [] := by
  cases k <;> rfl

theorem swGo_succ (v w : Line) (k : Nat) (prev : Option Char) (c : Char) (cs : Line) :
    swGo v w (k + 1) prev (c :: cs) = swGo v w k (some c) cs := rfl

theorem swGo_zero (v w : Line) (prev : Option Char) (c : Char) (cs : Line) :
    swGo v w 0 prev (c :: cs) =
      if matchWordAt v prev (c :: cs) then
        w ++ swGo v w (v.length - 1) (some c) cs
      else
        c :: swGo v w 0 (some c) cs := rfl

theorem noM_nil (v : Line) (prev : Option Char) : noM v prev [] = true := rfl

theorem noM_cons (v : Line) (prev : Option Char) (c : Char) (cs : Line) :
    noM v prev (c :: cs) = (!matchWordAt v prev (c :: cs) && noM v (some c) cs) := rfl

theorem isPre_nil_left (s : Line) : isPre [] s = true := rfl

theorem isPre_cons_cons (a : Char) (as : Line) (b : Char) (bs : Line) :
    isPre (a :: as) (b :: bs) = ((a == b) && isPre as bs) := rfl

theorem isPre_append_drop (u : Line) :
    ∀ s : Line, isPre u s = true → u ++ s.drop u.length = s := by
  induction u with
  | nil => intro s _; simp
  | cons a u ih =>
    intro s h
    cases s with
    | nil => cases h
    | cons b bs =>
      rw [isPre_cons_cons] at h
      obtain ⟨h1, h2⟩ := band_true h
      have hab : a = b := eq_of_beq h1
      subst hab
      rw [List.length_cons, List.drop_succ_cons, List.cons_append, ih bs h2]

theorem isPre_append_self (u X : Line) : isPre u (u ++ X) = true := by
  induction u with
  | nil => rfl
  | cons a u ih => rw [List.cons_append, isPre_cons_cons, ih]; simp

theorem lastO_cons (p : Option Char) (a : Char) (as : Line) :
    lastO p (a :: as) = lastO (some a) as := rfl

theorem lastO_of_ne_nil (v : Line) (hv : v ≠ []) (p q : Option Char) :
    lastO p v = lastO q v := by
  cases v with
  | nil => exact absurd rfl hv
  | cons a as => rfl

theorem lastO_word (l : Line) :
    ∀ p : Option Char, wordOpt p = true → l.all wordChar = true →
      wordOpt (lastO p l) = true := by
  induction l with
  | nil => intro p hp _; exact hp
  | cons c l ih =>
    intro p hp hl
    rw [List.all_cons] at hl
    obtain ⟨hc, hl⟩ := band_true hl
    rw [lastO_cons]
    exact ih (some c) hc hl

theorem matchWordAt_false_of_word (v : Line) (hv : v ≠ []) (hw : v.all wordChar = true)
    (prev : Option Char) (hp : wordOpt prev = true) (s : Line) :
    matchWordAt v prev s = false := by
  cases v with
  | nil => exact absurd rfl hv
  | cons h tl =>
    rw [List.all_cons] at hw
    obtain ⟨hh, _⟩ := band_true hw
    unfold matchWordAt
    have h1 : wordOpt (h :: tl).head? = true := hh
    have hb : boundary prev (h :: tl).head? = false := by
      unfold boundary
      rw [hp, h1]
      decide
    rw [hb]
    simp

theorem swGo_skip (v w : Line) (a : Line) :
    ∀ (prev : Option Char) (X : Line),
      swGo v w a.length prev (a ++ X) = swGo v w 0 (lastO prev a) X := by
  induction a with
  | nil => intro prev X; rfl
  | cons c a ih => intro prev X; exact ih (some c) X

theorem matchWordAt_head (v : Line) (hv : v ≠ []) (prev : Option Char) (c : Char)
    (cs : Line) (h : matchWordAt v prev (c :: cs) = true) : v.head? = some c := by
  cases v with
  | nil => exact absurd rfl hv
  | cons a as =>
    unfold matchWordAt at h
    rw [isPre_cons_cons] at h
    obtain ⟨h1, _⟩ := band_true (band_true h).1
    obtain ⟨hac, _⟩ := band_true h1
    rw [List.head?, eq_of_beq hac]

theorem matchWordAt_isPre (v : Line) (prev : Option Char) (s : Line)
    (h : matchWordAt v prev s = true) : isPre v s = true := by
  unfold matchWordAt at h
  exact (band_true (band_true h).1).1

theorem swGo_match_eq (v w : Line) (hv : v ≠ []) (prev : Option Char) (c : Char)
    (cs : Line) (hm : matchWordAt v prev (c :: cs) = true) :
    swGo v w 0 prev (c :: cs) =
      w ++ swGo v w 0 (lastO prev v) ((c :: cs).drop v.length) := by
  rw [swGo_zero, if_pos hm]
  cases v with
  | nil => exact absurd rfl hv
  | cons a tl =>
    have hac : a = c := by
      have := matchWordAt_head (a :: tl) (List.cons_ne_nil a tl) prev c cs hm
      simpa [List.head?] using this
    subst hac
    have hPre : isPre tl cs = true := by
      have h1 := matchWordAt_isPre (a :: tl) prev (a :: cs) hm
      rw [isPre_cons_cons] at h1
      exact (band_true h1).2
    have hdec : tl ++ cs.drop tl.length = cs := isPre_append_drop tl cs hPre
    rw [List.length_cons, List.drop_succ_cons, Nat.add_sub_cancel, lastO_cons]
    conv_lhs => rw [← hdec]
    rw [swGo_skip]

theorem swGo_copy_word (v w : Line) (hv : v ≠ []) (hw : v.all wordChar = true) (u : Line) :
    ∀ (prev : Option Char) (X : Line), u.all wordChar = true → wordOpt prev = true →
      swGo v w 0 prev (u ++ X) = u ++ swGo v w 0 (lastO prev u) X := by
  induction u with
  | nil => intro prev X _ _; rfl
  | cons c u ih =>
    intro prev X hu hp
    rw [List.all_cons] at hu
    obtain ⟨hc, hu⟩ := band_true hu
    rw [List.cons_append, swGo_zero,
      matchWordAt_false_of_word v hv hw prev hp (c :: (u ++ X))]
    simp only [Bool.false_eq_true, if_false]
    rw [ih (some c) X hu hc, lastO_cons, List.cons_append]

theorem isPre_swGo (v w : Line) (hv : v ≠ []) (hw : v.all wordChar = true) (u : Line) :
    ∀ (prev : Option Char) (cs : Line), u.all wordChar = true → wordOpt prev = true →
      isPre u (swGo v w 0 prev cs) = isPre u cs := by
  induction u with
  | nil => intro prev cs _ _; rfl
  | cons a u ih =>
    intro prev cs hu hp
    rw [List.all_cons] at hu
    obtain ⟨ha, hu⟩ := band_true hu
    cases cs with
    | nil => rw [swGo_nil]
    | cons c cs =>
      rw [swGo_zero, matchWordAt_false_of_word v hv hw prev hp (c :: cs)]
      simp only [Bool.false_eq_true, if_false]
      rw [isPre_cons_cons, isPre_cons_cons]
      by_cases hac : (a == c) = true
      · have : a = c := eq_of_beq hac
        subst this
        rw [ih (some a) cs hu ha]
      · rw [Bool.eq_false_iff.mpr hac]
        simp

theorem head_swGo (v w : Line) (hv : v ≠ []) (hw : v.all wordChar = true)
    (prev : Option Char) (cs : Line) (hp : wordOpt prev = true) :
    (swGo v w 0 prev cs).head? = cs.head? := by
  cases cs with
  | nil => rw [swGo_nil]
  | cons c cs =>
    rw [swGo_zero, matchWordAt_false_of_word v hv hw prev hp (c :: cs)]
    simp

theorem matchWordAt_swGo_rev (u : Line) (hu : u ≠ []) (huw : u.all wordChar = true)
    (v2 w2 : Line) (hv2 : v2 ≠ []) (hv2w : v2.all wordChar = true)
    (prev : Option Char) (c : Char) (cs : Line)
    (h : matchWordAt u prev (c :: swGo v2 w2 0 (some c) cs) = true) :
    matchWordAt u prev (c :: cs) = true := by
  cases u with
  | nil => exact absurd rfl hu
  | cons a u' =>
    unfold matchWordAt at h
    obtain ⟨h12, h3⟩ := band_true h
    obtain ⟨h1, h2⟩ := band_true h12
    rw [isPre_cons_cons] at h1
    obtain ⟨hac, hPreD⟩ := band_true h1
    have hceq : a = c := eq_of_beq hac
    rw [List.all_cons] at huw
    obtain ⟨haw, huw'⟩ := band_true huw
    have hcw : wordOpt (some c) = true := by
      show wordChar c = true
      rw [← hceq]
      exact haw
    have hPre : isPre u' cs = true := by
      rw [← isPre_swGo v2 w2 hv2 hv2w u' (some c) cs huw' hcw]
      exact hPreD
    have hdec : u' ++ cs.drop u'.length = cs := isPre_append_drop u' cs hPre
    have hD : swGo v2 w2 0 (some c) cs =
        u' ++ swGo v2 w2 0 (lastO (some c) u') (cs.drop u'.length) := by
      conv_lhs => rw [← hdec]
      exact swGo_copy_word v2 w2 hv2 hv2w u' (some c) (cs.drop u'.length) huw' hcw
    have hq : wordOpt (lastO (some c) u') = true := lastO_word u' (some c) hcw huw'
    have hhead2 : ((swGo v2 w2 0 (some c) cs).drop u'.length).head? =
        (cs.drop u'.length).head? := by
      rw [hD, List.drop_left]
      exact head_swGo v2 w2 hv2 hv2w _ _ hq
    have hdrop1 : (c :: swGo v2 w2 0 (some c) cs).drop (a :: u').length =
        (swGo v2 w2 0 (some c) cs).drop u'.length := by
      rw [List.length_cons, List.drop_succ_cons]
    have hdrop2 : (c :: cs).drop (a :: u').length = cs.drop u'.length := by
      rw [List.length_cons, List.drop_succ_cons]
    rw [hdrop1, hhead2] at h3
    unfold matchWordAt
    rw [isPre_cons_cons, hdrop2, hac, hPre, h2, h3]
    rfl

theorem noM_append_word (v : Line) (hv : v ≠ []) (hw : v.all wordChar = true) (u : Line) :
    ∀ (prev : Option Char) (X : Line), u.all wordChar = true → wordOpt prev = true →
      noM v prev (u ++ X) = noM v (lastO prev u) X := by
  induction u with
  | nil => intro prev X _ _; rfl
  | cons c u ih =>
    intro prev X hu hp
    rw [List.all_cons] at hu
    obtain ⟨hc, hu⟩ := band_true hu
    rw [List.cons_append, noM_cons,
      matchWordAt_false_of_word v hv hw prev hp (c :: (u ++ X))]
    simp only [Bool.not_false, Bool.true_and]
    rw [ih (some c) X hu hc, lastO_cons]

theorem noM_append_elim (v : Line) (a : Line) :
    ∀ (prev : Option Char) (X : Line), noM v prev (a ++ X) = true →
      noM v (lastO prev a) X = true := by
  induction a with
  | nil => intro prev X h; exact h
  | cons c a ih =>
    intro prev X h
    rw [List.cons_append, noM_cons] at h
    exact ih (some c) X (band_true h).2

theorem swGo_eq_of_noM (v w : Line) (s : Line) :
    ∀ prev : Option Char, noM v prev s = true → swGo v w 0 prev s = s := by
  induction s with
  | nil => intro prev _; rfl
  | cons c cs ih =>
    intro prev h
    rw [noM_cons] at h
    obtain ⟨h1, h2⟩ := band_true h
    have hm : matchWordAt v prev (c :: cs) = false := by
      revert h1
      cases matchWordAt v prev (c :: cs) <;> simp
    rw [swGo_zero, hm]
    simp only [Bool.false_eq_true, if_false]
    rw [ih (some c) h2]

theorem swGo_length_ge (v w : Line) (hv : v ≠ []) (hlw : v.length ≤ w.length) :
    ∀ (n : Nat) (s : Line), s.length ≤ n → ∀ prev : Option Char,
      s.length ≤ (swGo v w 0 prev s).length := by
  intro n
  induction n with
  | zero =>
    intro s hs prev
    have hnil : s = [] := List.length_eq_zero.mp (Nat.le_zero.mp hs)
    subst hnil
    simp [swGo_nil]
  | succ n ih =>
    intro s hs prev
    cases s with
    | nil => simp [swGo_nil]
    | cons c cs =>
      by_cases hm : matchWordAt v prev (c :: cs) = true
      · rw [swGo_match_eq v w hv prev c cs hm]
        have hPre : isPre v (c :: cs) = true := matchWordAt_isPre v prev (c :: cs) hm
        have hdec : v ++ (c :: cs).drop v.length = c :: cs :=
          isPre_append_drop v (c :: cs) hPre
        have hlen : v.length + ((c :: cs).drop v.length).length = (c :: cs).length := by
          conv_rhs => rw [← hdec]
          rw [List.length_append]
        have hv1 : 1 ≤ v.length := by
          cases v with
          | nil => exact absurd rfl hv
          | cons a as => simp
        have hXn : ((c :: cs).drop v.length).length ≤ n := by
          rw [List.length_cons] at hs hlen
          omega
        have htail := ih ((c :: cs).drop v.length) hXn (lastO prev v)
        rw [List.length_append]
        omega
      · rw [swGo_zero, if_neg hm]
        rw [List.length_cons, List.length_cons]
        have := ih cs (Nat.le_of_succ_le_succ hs) (some c)
        omega

theorem swGo_length_gt (v w : Line) (hv : v ≠ []) (hlw : v.length < w.length) :
    ∀ (n : Nat) (s : Line), s.length ≤ n → ∀ prev : Option Char,
      noM v prev s = false → s.length < (swGo v w 0 prev s).length := by
  intro n
  induction n with
  | zero =>
    intro s hs prev hn
    have hnil : s = [] := List.length_eq_zero.mp (Nat.le_zero.mp hs)
    subst hnil
    rw [noM_nil] at hn
    cases hn
  | succ n ih =>
    intro s hs prev hn
    cases s with
    | nil => rw [noM_nil] at hn; cases hn
    | cons c cs =>
      by_cases hm : matchWordAt v prev (c :: cs) = true
      · rw [swGo_match_eq v w hv prev c cs hm]
        have hPre : isPre v (c :: cs) = true := matchWordAt_isPre v prev (c :: cs) hm
        have hdec : v ++ (c :: cs).drop v.length = c :: cs :=
          isPre_append_drop v (c :: cs) hPre
        have hlen : v.length + ((c :: cs).drop v.length).length = (c :: cs).length := by
          conv_rhs => rw [← hdec]
          rw [List.length_append]
        have htail := swGo_length_ge v w hv (le_of_lt hlw)
          ((c :: cs).drop v.length).length ((c :: cs).drop v.length) le_rfl (lastO prev v)
        rw [List.length_append]
        omega
      · rw [noM_cons] at hn
        have hm' : matchWordAt v prev (c :: cs) = false := by
          revert hm
          cases matchWordAt v prev (c :: cs) <;> simp
        rw [hm'] at hn
        simp only [Bool.not_false, Bool.true_and] at hn
        rw [swGo_zero, hm']
        simp only [Bool.false_eq_true, if_false]
        rw [List.length_cons, List.length_cons]
        have := ih cs (Nat.le_of_succ_le_succ hs) (some c) hn
        omega

theorem noM_of_swGo_eq (v : Line) (hv : v ≠ []) (s : Line) (prev : Option Char)
    (h : swGo v ('_' :: v) 0 prev s = s) : noM v prev s = true := by
  by_contra hn
  have hn' : noM v prev s = false := by
    revert hn
    cases noM v prev s <;> simp
  have hgt := swGo_length_gt v ('_' :: v) hv
    (by rw [List.length_cons]; omega) s.length s le_rfl prev hn'
  rw [h] at hgt
  omega

theorem matchWordAt_underscore_false (u : Line) (hu : u ≠ [])
    (hnu : u.head? ≠ some '_') (prev : Option Char) (rest : Line) :
    matchWordAt u prev ('_' :: rest) = false := by
  cases u with
  | nil => exact absurd rfl hu
  | cons a tl =>
    have ha : (a == '_') = false := by
      refine beq_eq_false_iff_ne.mpr ?_
      intro he
      refine hnu ?_
      rw [List.head?, he]
    unfold matchWordAt
    rw [isPre_cons_cons, ha]
    simp

theorem wordOpt_underscore : wordOpt (some '_') = true := by decide

theorem noM_swGo_self (v : Line) (hv : v ≠ []) (hw : v.all wordChar = true)
    (hnu : v.head? ≠ some '_') :
    ∀ (n : Nat) (s : Line), s.length ≤ n → ∀ prev : Option Char,
      noM v prev (swGo v ('_' :: v) 0 prev s) = true := by
  intro n
  induction n with
  | zero =>
    intro s hs prev
    have hnil : s = [] := List.length_eq_zero.mp (Nat.le_zero.mp hs)
    subst hnil
    rw [swGo_nil, noM_nil]
  | succ n ih =>
    intro s hs prev
    cases s with
    | nil => rw [swGo_nil, noM_nil]
    | cons c cs =>
      by_cases hm : matchWordAt v prev (c :: cs) = true
      · rw [swGo_match_eq v ('_' :: v) hv prev c cs hm]
        rw [List.cons_append, noM_cons]
        have hPre : isPre v (c :: cs) = true := matchWordAt_isPre v prev (c :: cs) hm
        have hdec : v ++ (c :: cs).drop v.length = c :: cs :=
          isPre_append_drop v (c :: cs) hPre
        have hlen : v.length + ((c :: cs).drop v.length).length = (c :: cs).length := by
          conv_rhs => rw [← hdec]
          rw [List.length_append]
        have hv1 : 1 ≤ v.length := by
          cases v with
          | nil => exact absurd rfl hv
          | cons a as => simp
        have hXn : ((c :: cs).drop v.length).length ≤ n := by
          rw [List.length_cons] at hs hlen
          omega
        have hR := ih ((c :: cs).drop v.length) hXn (lastO prev v)
        have h1 : matchWordAt v prev
            ('_' :: (v ++ swGo v ('_' :: v) 0 (lastO prev v) ((c :: cs).drop v.length))) =
            false := matchWordAt_underscore_false v hv hnu prev _
        have h2 : noM v (some '_')
            (v ++ swGo v ('_' :: v) 0 (lastO prev v) ((c :: cs).drop v.length)) = true := by
          rw [noM_append_word v hv hw v (some '_') _ hw wordOpt_underscore]
          rw [lastO_of_ne_nil v hv (some '_') prev]
          exact hR
        rw [h1, h2]
        rfl
      · have hD := ih cs (Nat.le_of_succ_le_succ hs) (some c)
        rw [swGo_zero, if_neg hm, noM_cons]
        have h1 : matchWordAt v prev (c :: swGo v ('_' :: v) 0 (some c) cs) = false := by
          by_contra hx
          have hx' : matchWordAt v prev (c :: swGo v ('_' :: v) 0 (some c) cs) = true := by
            revert hx
            cases matchWordAt v prev (c :: swGo v ('_' :: v) 0 (some c) cs) <;> simp
          exact hm (matchWordAt_swGo_rev v hv hw v ('_' :: v) hv hw prev c cs hx')
        rw [h1]
        simp only [Bool.not_false, Bool.true_and]
        exact hD

theorem noM_preserved_swGo (u : Line) (hu : u ≠ []) (huw : u.all wordChar = true)
    (hnu : u.head? ≠ some '_') (v2 : Line) (hv2 : v2 ≠ []) (hv2w : v2.all wordChar = true) :
    ∀ (n : Nat) (s : Line), s.length ≤ n → ∀ prev : Option Char,
      noM u prev s = true → noM u prev (swGo v2 ('_' :: v2) 0 prev s) = true := by
  intro n
  induction n with
  | zero =>
    intro s hs prev _
    have hnil : s = [] := List.length_eq_zero.mp (Nat.le_zero.mp hs)
    subst hnil
    rw [swGo_nil, noM_nil]
  | succ n ih =>
    intro s hs prev hnoM
    cases s with
    | nil => rw [swGo_nil, noM_nil]
    | cons c cs =>
      by_cases hm : matchWordAt v2 prev (c :: cs) = true
      · rw [swGo_match_eq v2 ('_' :: v2) hv2 prev c cs hm]
        rw [List.cons_append, noM_cons]
        have hPre : isPre v2 (c :: cs) = true := matchWordAt_isPre v2 prev (c :: cs) hm
        have hdec : v2 ++ (c :: cs).drop v2.length = c :: cs :=
          isPre_append_drop v2 (c :: cs) hPre
        have hlen : v2.length + ((c :: cs).drop v2.length).length = (c :: cs).length := by
          conv_rhs => rw [← hdec]
          rw [List.length_append]
        have hv1 : 1 ≤ v2.length := by
          cases v2 with
          | nil => exact absurd rfl hv2
          | cons a as => simp
        have hXn : ((c :: cs).drop v2.length).length ≤ n := by
          rw [List.length_cons] at hs hlen
          omega
        have hX : noM u (lastO prev v2) ((c :: cs).drop v2.length) = true := by
          refine noM_append_elim u v2 prev ((c :: cs).drop v2.length) ?_
          rw [hdec]
          exact hnoM
        have hR := ih ((c :: cs).drop v2.length) hXn (lastO prev v2) hX
        have h1 : matchWordAt u prev
            ('_' :: (v2 ++ swGo v2 ('_' :: v2) 0 (lastO prev v2) ((c :: cs).drop v2.length))) =
            false := matchWordAt_underscore_false u hu hnu prev _
        have h2 : noM u (some '_')
            (v2 ++ swGo v2 ('_' :: v2) 0 (lastO prev v2) ((c :: cs).drop v2.length)) = true := by
          rw [noM_append_word u hu huw v2 (some '_') _ hv2w wordOpt_underscore]
          rw [lastO_of_ne_nil v2 hv2 (some '_') prev]
          exact hR
        rw [h1, h2]
        rfl
      · rw [swGo_zero, if_neg hm, noM_cons]
        rw [noM_cons] at hnoM
        obtain ⟨hn1, hn2⟩ := band_true hnoM
        have h1 : matchWordAt u prev (c :: swGo v2 ('_' :: v2) 0 (some c) cs) = false := by
          by_contra hx
          have hx' : matchWordAt u prev (c :: swGo v2 ('_' :: v2) 0 (some c) cs) = true := by
            revert hx
            cases matchWordAt u prev (c :: swGo v2 ('_' :: v2) 0 (some c) cs) <;> simp
          have hmu := matchWordAt_swGo_rev u hu huw v2 ('_' :: v2) hv2 hv2w prev c cs hx'
          rw [hmu] at hn1
          cases hn1
        rw [h1]
        simp only [Bool.not_false, Bool.true_and]
        exact ih cs (Nat.le_of_succ_le_succ hs) (some c) hn2

/-! ### State-level lemmas for the idempotence argument -/

theorem applyMsg_eq_subWord (line v message : Line)
    (h : hasSub phraseAllowed message = false) :
    applyMsgToLine line v message = subWord v line := by
  unfold applyMsgToLine
  rw [h, Bool.and_false]
  simp only [Bool.false_eq_true, if_false]
  split_ifs <;> rfl

theorem pyResolve_lt (len : Nat) (i : Int) (k : Nat) (h : pyResolve len i = some k) :
    k < len := by
  unfold pyResolve at h
  by_cases h0 : 0 ≤ i
  · rw [if_pos h0] at h
    by_cases h1 : i < (len : Int)
    · rw [if_pos h1] at h
      have := Option.some.inj h
      omega
    · rw [if_neg h1] at h
      cases h
  · rw [if_neg h0] at h
    by_cases h1 : 0 ≤ i + (len : Int)
    · rw [if_pos h1] at h
      have := Option.some.inj h
      omega
    · rw [if_neg h1] at h
      cases h

theorem pySet_resolve (xs : List Line) (i : Int) (k : Nat) (a : Line)
    (h : pyResolve xs.length i = some k) : pySet xs i a = xs.set k a := by
  unfold pySet
  rw [h]

theorem processMsg_view (st stA : St) (m : Msg) (v : Line)
    (hf : findVarName m.message = some v) (hu : (v.head? == some '_') = false)
    (h : processMsg st m = .ok stA) :
    ∃ k line, pyResolve st.buf.length (m.line - 1) = some k ∧
      st.buf.get? k = some line ∧
      ((applyMsgToLine line v m.message = line ∧ stA = st) ∨
       (applyMsgToLine line v m.message ≠ line ∧
        stA = ⟨st.buf.set k (applyMsgToLine line v m.message), st.total + 1⟩)) := by
  unfold processMsg at h
  rw [hf] at h
  dsimp only at h
  rw [hu] at h
  simp only [Bool.false_eq_true, if_false] at h
  cases hg : pyGet st.buf (m.line - 1) with
  | none => rw [hg] at h; cases h
  | some line =>
    rw [hg] at h
    dsimp only at h
    have hres : ∃ k, pyResolve st.buf.length (m.line - 1) = some k ∧
        st.buf.get? k = some line := by
      unfold pyGet at hg
      cases hk : pyResolve st.buf.length (m.line - 1) with
      | none => rw [hk] at hg; cases hg
      | some k => rw [hk] at hg; exact ⟨k, rfl, hg⟩
    obtain ⟨k, hk, hgk⟩ := hres
    refine ⟨k, line, hk, hgk, ?_⟩
    by_cases he : (applyMsgToLine line v m.message == line) = true
    · rw [if_pos he] at h
      cases h
      exact Or.inl ⟨eq_of_beq he, rfl⟩
    · rw [if_neg he] at h
      rw [pySet_resolve st.buf (m.line - 1) k _ hk] at h
      cases h
      refine Or.inr ⟨?_, rfl⟩
      intro hq
      rw [hq] at he
      simp at he

/-! ### Claim C4: idempotence (amended) -/

/-- C4 counterexample: for the variable name `a-a` (which contains a
non-word character, so the regex word boundaries float) on the line
`a-a-a`, the first pass rewrites the line to `_a-a-a` and a second pass
with the same message rewrites it again to `_a-_a-a`, counting another
fix: applying the pass twice is not the same as applying it once. -/
theorem C4_counterexample :
    processFile [("a-a-a").toList]
      [⟨1, sq :: ("a-a").toList ++ sq :: usedTail1⟩] 0 =
      .ok ⟨[("_a-a-a").toList], 1⟩ ∧
    processFile [("_a-a-a").toList]
      [⟨1, sq :: ("a-a").toList ++ sq :: usedTail1⟩] 0 =
      .ok ⟨[("_a-_a-a").toList], 1⟩ ∧
    ("_a-_a-a").toList ≠ ("_a-a-a").toList :=
  ⟨rfl, rfl, by decide⟩

/-! ### Scanner lemmas for the catch-clause substitution -/

theorem scGo_nil (v : Line) (k : Nat) (prev : Option Char) : scGo v k prev [] = [] := by
  cases k <;> rfl

theorem scGo_succ (v : Line) (k : Nat) (prev : Option Char) (c : Char) (cs : Line) :
    scGo v (k + 1) prev (c :: cs) = scGo v k (some c) cs := rfl

theorem scGo_zero (v : Line) (prev : Option Char) (c : Char) (cs : Line) :
    scGo v 0 prev (c :: cs) =
      (match matchCatchLen v prev (c :: cs) with
       | some n => catchRep v ++ scGo v (n - 1) (some c) cs
       | none => c :: scGo v 0 (some c) cs) := rfl

theorem noC_nil (v : Line) (prev : Option Char) : noC v prev [] = true := rfl

theorem noC_cons (v : Line) (prev : Option Char) (c : Char) (cs : Line) :
    noC v prev (c :: cs) =
      (!(matchCatchLen v prev (c :: cs)).isSome && noC v (some c) cs) := rfl

theorem space_not_word (c : Char) (h : pySpace c = true) : wordChar c = false := by
  unfold pySpace at h
  simp only [Bool.or_eq_true, decide_eq_true_eq] at h
  rcases h with ((((h | h) | h) | h) | h) | h <;> subst h <;> decide

theorem word_not_space (c : Char) (h : wordChar c = true) : pySpace c = false := by
  by_contra hx
  have hx' : pySpace c = true := by
    revert hx
    cases pySpace c <;> simp
  rw [space_not_word c hx'] at h
  cases h

theorem matchCatchLen_none_of_word (v : Line) (prev : Option Char)
    (hp : wordOpt prev = true) (s : Line) : matchCatchLen v prev s = none := by
  unfold matchCatchLen
  have hb : boundary prev (some 'c') = false := by
    unfold boundary
    rw [hp]
    decide
  rw [hb]
  simp

theorem catchTok_cons : catchTok = 'c' :: ("atch").toList := rfl

theorem matchCatchLen_none_of_head (v : Line) (prev : Option Char) (x : Char)
    (hx : ('c' == x) = false) (xs : Line) :
    matchCatchLen v prev (x :: xs) = none := by
  unfold matchCatchLen
  have hpre : isPre catchTok (x :: xs) = false := by
    rw [catchTok_cons, isPre_cons_cons, hx]
    rfl
  rw [hpre]
  simp

theorem takeWhile_all (p : Char → Bool) (l : Line) : (l.takeWhile p).all p = true := by
  induction l with
  | nil => rfl
  | cons c cs ih =>
    cases hp : p c with
    | true =>
      rw [List.takeWhile_cons, hp]
      simp only [if_true]
      rw [List.all_cons, hp, ih]
      rfl
    | false =>
      rw [List.takeWhile_cons, hp]
      simp only [Bool.false_eq_true, if_false]
      rfl

theorem takeWhile_append_drop_self (p : Char → Bool) (l : Line) :
    l.takeWhile p ++ l.drop (l.takeWhile p).length = l := by
  induction l with
  | nil => rfl
  | cons c cs ih =>
    cases hp : p c with
    | true =>
      rw [List.takeWhile_cons, hp]
      simp only [if_true, List.length_cons, List.drop_succ_cons, List.cons_append]
      rw [ih]
    | false =>
      rw [List.takeWhile_cons, hp]
      simp only [Bool.false_eq_true, if_false, List.length_nil, List.drop_zero,
        List.nil_append]

theorem takeWhile_all_append (p : Char → Bool) (l : Line) (x : Char) (r : Line)
    (hl : l.all p = true) (hx : p x = false) :
    (l ++ x :: r).takeWhile p = l := by
  induction l with
  | nil =>
    rw [List.nil_append, List.takeWhile_cons, hx]
    simp
  | cons c cs ih =>
    rw [List.all_cons] at hl
    obtain ⟨hc, hcs⟩ := band_true hl
    rw [List.cons_append, List.takeWhile_cons, hc]
    simp only [if_true]
    rw [ih hcs]

theorem lastO_append (p : Option Char) (a b : Line) :
    lastO p (a ++ b) = lastO (lastO p a) b := by
  induction a generalizing p with
  | nil => rfl
  | cons c a ih =>
    rw [List.cons_append, lastO_cons, lastO_cons]
    exact ih (some c)

theorem tryKs_exists (v r : Line) :
    ∀ (K n : Nat), tryKs v r K = some n → ∃ k, k ≤ K ∧ tryAfterV v r k = some n := by
  intro K
  induction K with
  | zero => intro n h; exact ⟨0, le_rfl, h⟩
  | succ K ih =>
    intro n h
    unfold tryKs at h
    cases ht : tryAfterV v r (K + 1) with
    | some n2 =>
      rw [ht] at h
      cases h
      exact ⟨K + 1, le_rfl, ht⟩
    | none =>
      rw [ht] at h
      obtain ⟨k, hk, h2⟩ := ih n h
      exact ⟨k, Nat.le_succ_of_le hk, h2⟩

theorem tryKs_first (v r : Line) (k n : Nat) (h : tryAfterV v r k = some n) :
    tryKs v r k = some n := by
  cases k with
  | zero => exact h
  | succ k =>
    unfold tryKs
    rw [h]

theorem tryAfterV_decomp (v : Line) (hv : v ≠ []) (r : Line) (k n : Nat)
    (h : tryAfterV v r k = some n) :
    ∃ sp2 sp3 rest, r = sp2 ++ v ++ sp3 ++ [rpar] ++ rest ∧
      sp2.all pySpace = true ∧ sp3.all pySpace = true ∧
      sp2.length = k ∧ n = k + v.length + sp3.length + 1 := by
  unfold tryAfterV at h
  by_cases hc : ((r.take k).all pySpace && isPre v (r.drop k)) = true
  · rw [if_pos hc] at h
    dsimp only at h
    obtain ⟨h1, h2⟩ := band_true hc
    by_cases hh : ((r.drop (k + v.length)).drop
        ((r.drop (k + v.length)).takeWhile pySpace).length).head? == some rpar
    · rw [if_pos hh] at h
      have hn : n = k + v.length + ((r.drop (k + v.length)).takeWhile pySpace).length + 1 :=
        (Option.some.inj h).symm
      have hdk : r.drop k ≠ [] := by
        intro hq
        rw [hq] at h2
        cases v with
        | nil => exact hv rfl
        | cons a as => cases h2
      have hklt : k < r.length := by
        by_contra hge
        exact hdk (List.drop_eq_nil_of_le (le_of_not_lt hge))
      have hsp2len : (r.take k).length = k := by
        rw [List.length_take]
        omega
      have hr1 : r.take k ++ r.drop k = r := List.take_append_drop k r
      have hr2 : v ++ (r.drop k).drop v.length = r.drop k :=
        isPre_append_drop v (r.drop k) h2
      have hr3 : (r.drop k).drop v.length = r.drop (k + v.length) := by
        rw [List.drop_drop, Nat.add_comm]
      have hB := takeWhile_append_drop_self pySpace (r.drop (k + v.length))
      have hhead : ((r.drop (k + v.length)).drop
          ((r.drop (k + v.length)).takeWhile pySpace).length).head? = some rpar :=
        eq_of_beq hh
      cases hsplit : (r.drop (k + v.length)).drop
          ((r.drop (k + v.length)).takeWhile pySpace).length with
      | nil =>
        rw [hsplit] at hhead
        cases hhead
      | cons c1 rest =>
        rw [hsplit] at hhead
        have hc1 : c1 = rpar := Option.some.inj hhead
        subst hc1
        refine ⟨r.take k, (r.drop (k + v.length)).takeWhile pySpace, rest, ?_, h1,
          takeWhile_all _ _, hsp2len, ?_⟩
        · rw [hsplit] at hB
          calc r = r.take k ++ r.drop k := hr1.symm
            _ = r.take k ++ (v ++ (r.drop k).drop v.length) := by rw [hr2]
            _ = r.take k ++ (v ++ ((r.drop (k + v.length)).takeWhile pySpace ++
                  (rpar :: rest))) := by rw [hr3, hB]
            _ = r.take k ++ v ++ (r.drop (k + v.length)).takeWhile pySpace ++
                  [rpar] ++ rest := by simp [List.append_assoc]
        · omega
    · rw [if_neg hh] at h
      cases h
  · rw [if_neg hc] at h
    cases h

theorem matchCatchLen_decomp (v : Line) (hv : v ≠ []) (prev : Option Char) (s : Line)
    (n : Nat) (h : matchCatchLen v prev s = some n) :
    ∃ sp1 sp2 sp3 rest,
      s = catchTok ++ sp1 ++ [lpar] ++ sp2 ++ v ++ sp3 ++ [rpar] ++ rest ∧
      sp1.all pySpace = true ∧ sp2.all pySpace = true ∧ sp3.all pySpace = true ∧
      boundary prev (some 'c') = true ∧
      n = 7 + sp1.length + sp2.length + v.length + sp3.length := by
  unfold matchCatchLen at h
  by_cases hb : (boundary prev (some 'c') && isPre catchTok s) = true
  · rw [if_pos hb] at h
    dsimp only at h
    obtain ⟨hb1, hb2⟩ := band_true hb
    cases hsplit : (s.drop 5).drop ((s.drop 5).takeWhile pySpace).length with
    | nil =>
      rw [hsplit] at h
      cases h
    | cons c1 r =>
      rw [hsplit] at h
      dsimp only at h
      by_cases hc1 : (c1 == lpar) = true
      · rw [if_pos hc1] at h
        cases htk : tryKs v r ((r.takeWhile pySpace).length) with
        | none =>
          rw [htk] at h
          cases h
        | some n2 =>
          rw [htk] at h
          have hn : n = 6 + ((s.drop 5).takeWhile pySpace).length + n2 :=
            (Option.some.inj h).symm
          obtain ⟨k, _, hta⟩ := tryKs_exists v r _ n2 htk
          obtain ⟨sp2, sp3, rest, hr, hsp2, hsp3, hk, hn2⟩ := tryAfterV_decomp v hv r k n2 hta
          have hs5 : catchTok ++ s.drop 5 = s := by
            have h5 : catchTok.length = 5 := rfl
            have := isPre_append_drop catchTok s hb2
            rw [h5] at this
            exact this
          have hs0 : (s.drop 5).takeWhile pySpace ++ (c1 :: r) = s.drop 5 := by
            rw [← hsplit]
            exact takeWhile_append_drop_self pySpace (s.drop 5)
          have hc1' : c1 = lpar := eq_of_beq hc1
          subst hc1'
          refine ⟨(s.drop 5).takeWhile pySpace, sp2, sp3, rest, ?_, takeWhile_all _ _,
            hsp2, hsp3, hb1, ?_⟩
          · calc s = catchTok ++ s.drop 5 := hs5.symm
              _ = catchTok ++ ((s.drop 5).takeWhile pySpace ++ (lpar :: r)) := by rw [hs0]
              _ = catchTok ++ ((s.drop 5).takeWhile pySpace ++ (lpar ::
                    (sp2 ++ v ++ sp3 ++ [rpar] ++ rest))) := by rw [← hr]
              _ = catchTok ++ (s.drop 5).takeWhile pySpace ++ [lpar] ++ sp2 ++ v ++
                    sp3 ++ [rpar] ++ rest := by simp [List.append_assoc]
          · omega
      · rw [if_neg hc1] at h
        cases h
  · rw [if_neg hb] at h
    cases h

theorem matchCatchLen_construct (v : Line) (hv : v ≠ []) (hw : v.all wordChar = true)
    (prev : Option Char) (sp1 sp2 sp3 rest : Line)
    (h1 : sp1.all pySpace = true) (h2 : sp2.all pySpace = true)
    (h3 : sp3.all pySpace = true) (hb : boundary prev (some 'c') = true) :
    matchCatchLen v prev
        (catchTok ++ sp1 ++ [lpar] ++ sp2 ++ v ++ sp3 ++ [rpar] ++ rest) =
      some (7 + sp1.length + sp2.length + v.length + sp3.length) := by
  have hs : catchTok ++ sp1 ++ [lpar] ++ sp2 ++ v ++ sp3 ++ [rpar] ++ rest =
      catchTok ++ (sp1 ++ (lpar :: (sp2 ++ (v ++ (sp3 ++ (rpar :: rest)))))) := by
    simp [List.append_assoc]
  rw [hs]
  unfold matchCatchLen
  have hpre : isPre catchTok (catchTok ++ (sp1 ++ (lpar :: (sp2 ++ (v ++ (sp3 ++
      (rpar :: rest))))))) = true := isPre_append_self _ _
  rw [hb, hpre]
  simp only [Bool.and_self, if_true]
  have h5 : catchTok.length = 5 := rfl
  have hdrop5 : (catchTok ++ (sp1 ++ (lpar :: (sp2 ++ (v ++ (sp3 ++
      (rpar :: rest))))))).drop 5 = sp1 ++ (lpar :: (sp2 ++ (v ++ (sp3 ++
      (rpar :: rest))))) := by
    rw [← h5, List.drop_left]
  rw [hdrop5]
  have hplpar : pySpace lpar = false := by decide
  have htw1 : (sp1 ++ (lpar :: (sp2 ++ (v ++ (sp3 ++ (rpar :: rest)))))).takeWhile
      pySpace = sp1 := takeWhile_all_append pySpace sp1 lpar _ h1 hplpar
  rw [htw1, List.drop_left]
  simp only [beq_self_eq_true, if_true]
  cases v with
  | nil => exact absurd rfl hv
  | cons vh vt =>
    rw [List.all_cons] at hw
    obtain ⟨hvh, hvt⟩ := band_true hw
    have hpvh : pySpace vh = false := word_not_space vh hvh
    have hassoc : sp2 ++ ((vh :: vt) ++ (sp3 ++ (rpar :: rest))) =
        sp2 ++ (vh :: (vt ++ (sp3 ++ (rpar :: rest)))) := by
      simp
    rw [hassoc]
    have htw2 : (sp2 ++ (vh :: (vt ++ (sp3 ++ (rpar :: rest))))).takeWhile pySpace =
        sp2 := takeWhile_all_append pySpace sp2 vh _ h2 hpvh
    rw [htw2]
    have hta : tryAfterV (vh :: vt) (sp2 ++ (vh :: (vt ++ (sp3 ++ (rpar :: rest)))))
        sp2.length = some (sp2.length + (vh :: vt).length + sp3.length + 1) := by
      unfold tryAfterV
      have htake : (sp2 ++ (vh :: (vt ++ (sp3 ++ (rpar :: rest))))).take sp2.length =
          sp2 := List.take_left _ _
      have hdropk : (sp2 ++ (vh :: (vt ++ (sp3 ++ (rpar :: rest))))).drop sp2.length =
          vh :: (vt ++ (sp3 ++ (rpar :: rest))) := List.drop_left _ _
      rw [htake, hdropk, h2]
      have hpre2 : isPre (vh :: vt) (vh :: (vt ++ (sp3 ++ (rpar :: rest)))) = true := by
        have : vh :: (vt ++ (sp3 ++ (rpar :: rest))) =
            (vh :: vt) ++ (sp3 ++ (rpar :: rest)) := by simp
        rw [this]
        exact isPre_append_self _ _
      rw [hpre2]
      simp only [Bool.and_self, if_true]
      have hdropkv : (sp2 ++ (vh :: (vt ++ (sp3 ++ (rpar :: rest))))).drop
          (sp2.length + (vh :: vt).length) = sp3 ++ (rpar :: rest) := by
        have hstep1 : (sp2 ++ ((vh :: vt) ++ (sp3 ++ (rpar :: rest)))).drop
            (sp2.length + (vh :: vt).length) = sp3 ++ (rpar :: rest) := by
          rw [← List.drop_drop]
          rw [List.drop_left]
          rw [List.drop_left]
        rw [← hstep1]
        congr 1
        simp
      rw [hdropkv]
      have hprpar : pySpace rpar = false := by decide
      have htw3 : (sp3 ++ (rpar :: rest)).takeWhile pySpace = sp3 :=
        takeWhile_all_append pySpace sp3 rpar _ h3 hprpar
      rw [htw3, List.drop_left]
      simp only [List.head?, beq_self_eq_true, if_true]
    rw [tryKs_first _ _ _ _ hta]
    dsimp only
    congr 1
    omega

/-! ### Prefix and substring toolbox -/

theorem isPre_length_le : ∀ (u s : Line), isPre u s = true → u.length ≤ s.length := by
  intro u
  induction u with
  | nil => intro s _; simp
  | cons a as ih =>
    intro s h
    cases s with
    | nil => cases h
    | cons b bs =>
      rw [isPre_cons_cons] at h
      have := ih bs (band_true h).2
      simp only [List.length_cons]
      omega

theorem isPre_head (d : Char) (ds r : Line) (h : isPre (d :: ds) r = true) :
    r.head? = some d := by
  cases r with
  | nil => cases h
  | cons b bs =>
    rw [isPre_cons_cons] at h
    rw [List.head?, eq_of_beq (band_true h).1]

theorem isPre_of_isPre_append : ∀ (t a b : Line), isPre t (a ++ b) = true →
    t.length ≤ a.length → isPre t a = true := by
  intro t
  induction t with
  | nil => intro a b _ _; rfl
  | cons c t ih =>
    intro a b h hl
    cases a with
    | nil => simp at hl
    | cons d a2 =>
      rw [List.cons_append, isPre_cons_cons] at h
      obtain ⟨h1, h2⟩ := band_true h
      rw [isPre_cons_cons, h1]
      simp only [List.length_cons] at hl
      rw [ih a2 b h2 (by omega)]
      rfl

theorem isPre_append_split : ∀ (a t b : Line), isPre t (a ++ b) = true →
    a.length ≤ t.length → t.take a.length = a ∧ isPre (t.drop a.length) b = true := by
  intro a
  induction a with
  | nil => intro t b h _; exact ⟨rfl, h⟩
  | cons d a2 ih =>
    intro t b h hl
    cases t with
    | nil => simp at hl
    | cons c t2 =>
      rw [List.cons_append, isPre_cons_cons] at h
      obtain ⟨h1, h2⟩ := band_true h
      simp only [List.length_cons] at hl
      obtain ⟨ht, hp⟩ := ih t2 b h2 (by omega)
      refine ⟨?_, ?_⟩
      · rw [List.length_cons, List.take_succ_cons, ht, eq_of_beq h1]
      · rw [List.length_cons, List.drop_succ_cons]
        exact hp

theorem isPre_all_imp_le (p : Char → Bool) : ∀ (t u : Line) (x : Char) (R : Line),
    isPre u (t ++ x :: R) = true → u.all p = true → p x = false → t.all p = true →
    u.length ≤ t.length := by
  intro t
  induction t with
  | nil =>
    intro u x R h hu hx _
    cases u with
    | nil => simp
    | cons c u2 =>
      rw [List.nil_append, isPre_cons_cons] at h
      rw [List.all_cons] at hu
      have hc := eq_of_beq (band_true h).1
      subst hc
      rw [(band_true hu).1] at hx
      cases hx
  | cons d t2 ih =>
    intro u x R h hu hx ht
    cases u with
    | nil => simp
    | cons c u2 =>
      rw [List.cons_append, isPre_cons_cons] at h
      rw [List.all_cons] at hu ht
      have := ih u2 x R (band_true h).2 (band_true hu).2 hx (band_true ht).2
      simp only [List.length_cons]
      omega

theorem isPre_append_ext : ∀ (t x y : Line), isPre t x = true → isPre t (x ++ y) = true := by
  intro t
  induction t with
  | nil => intro x y _; rfl
  | cons c t ih =>
    intro x y h
    cases x with
    | nil => cases h
    | cons b bs =>
      rw [isPre_cons_cons] at h
      rw [List.cons_append, isPre_cons_cons, (band_true h).1, ih bs y (band_true h).2]
      rfl

theorem hasSub_of_isPre (t s : Line) (h : isPre t s = true) : hasSub t s = true := by
  cases s with
  | nil => exact h
  | cons c cs =>
    unfold hasSub
    rw [h]
    rfl

theorem hasSub_exists : ∀ (t s : Line), hasSub t s = true → ∃ i, isPre t (s.drop i) = true := by
  intro t s
  induction s with
  | nil => intro h; exact ⟨0, h⟩
  | cons c cs ih =>
    intro h
    unfold hasSub at h
    rcases (Bool.or_eq_true _ _).mp h with h1 | h2
    · exact ⟨0, h1⟩
    · obtain ⟨i, hi⟩ := ih h2
      exact ⟨i + 1, hi⟩

theorem hasSub_intro : ∀ (t s : Line) (i : Nat), isPre t (s.drop i) = true →
    hasSub t s = true := by
  intro t s
  induction s with
  | nil =>
    intro i h
    rw [List.drop_nil] at h
    cases t with
    | nil => rfl
    | cons a as => cases h
  | cons c cs ih =>
    intro i h
    cases i with
    | zero =>
      rw [List.drop_zero] at h
      exact hasSub_of_isPre _ _ h
    | succ i =>
      rw [List.drop_succ_cons] at h
      unfold hasSub
      rw [ih i h]
      simp

theorem hasSub_append_right (t a b : Line) (h : hasSub t b = true) :
    hasSub t (a ++ b) = true := by
  obtain ⟨i, hi⟩ := hasSub_exists t b h
  refine hasSub_intro t (a ++ b) (a.length + i) ?_
  rw [← List.drop_drop, List.drop_left]
  exact hi

theorem hasSub_append_left (t a b : Line) (h : hasSub t a = true) :
    hasSub t (a ++ b) = true := by
  cases t with
  | nil =>
    cases hab : a ++ b with
    | nil => rfl
    | cons c cs =>
      unfold hasSub
      rw [isPre_nil_left]
      rfl
  | cons x xs =>
    obtain ⟨i, hi⟩ := hasSub_exists (x :: xs) a h
    refine hasSub_intro (x :: xs) (a ++ b) i ?_
    have hle : i ≤ a.length := by
      by_contra hgt
      have hni0 : a.length ≤ i := by omega
      have hni : a.drop i = [] := List.drop_eq_nil_of_le hni0
      rw [hni] at hi
      cases hi
    have hd : (a ++ b).drop i = a.drop i ++ b := by
      rw [List.drop_append_eq_append_drop, Nat.sub_eq_zero_of_le hle, List.drop_zero]
    rw [hd]
    exact isPre_append_ext (x :: xs) (a.drop i) b hi

theorem hasSub_append_cases (t : Line) : ∀ (a b : Line), hasSub t (a ++ b) = true →
    (∃ i, i < a.length ∧ isPre t (a.drop i ++ b) = true) ∨ hasSub t b = true := by
  intro a
  induction a with
  | nil => intro b h; exact Or.inr h
  | cons c a2 ih =>
    intro b h
    rw [List.cons_append] at h
    unfold hasSub at h
    rcases (Bool.or_eq_true _ _).mp h with h1 | h2
    · refine Or.inl ⟨0, by simp, ?_⟩
      rw [List.drop_zero, List.cons_append]
      exact h1
    · rcases ih b h2 with ⟨i, hi, hp⟩ | hb
      · refine Or.inl ⟨i + 1, by simp only [List.length_cons]; omega, ?_⟩
        rw [List.drop_succ_cons]
        exact hp
      · exact Or.inr hb

theorem getLast?_word : ∀ (u : Line), u ≠ [] → u.all wordChar = true →
    wordOpt u.getLast? = true := by
  intro u
  induction u with
  | nil => intro h _; exact absurd rfl h
  | cons a as ih =>
    intro _ hw
    rw [List.all_cons] at hw
    cases as with
    | nil => exact (band_true hw).1
    | cons b bs =>
      rw [List.getLast?_cons_cons]
      exact ih (List.cons_ne_nil b bs) (band_true hw).2

theorem head?_word (u : Line) (hu : u ≠ []) (hw : u.all wordChar = true) :
    wordOpt u.head? = true := by
  cases u with
  | nil => exact absurd rfl hu
  | cons a as =>
    rw [List.all_cons] at hw
    exact (band_true hw).1

theorem lastO_space (sp : Line) (hsp : sp.all pySpace = true) :
    ∀ p, wordOpt p = false → wordOpt (lastO p sp) = false := by
  induction sp with
  | nil => intro p hp; exact hp
  | cons c cs ih =>
    intro p hp
    rw [List.all_cons] at hsp
    obtain ⟨hc, hcs⟩ := band_true hsp
    rw [lastO_cons]
    exact ih hcs (some c) (space_not_word c hc)

theorem space_ne_c (x : Char) (hx : pySpace x = true) : ('c' == x) = false := by
  unfold pySpace at hx
  simp only [Bool.or_eq_true, decide_eq_true_eq] at hx
  rcases hx with ((((h | h) | h) | h) | h) | h <;> subst h <;> decide

theorem space_ne_und (x : Char) (hx : pySpace x = true) : (x == '_') = false := by
  unfold pySpace at hx
  simp only [Bool.or_eq_true, decide_eq_true_eq] at hx
  rcases hx with ((((h | h) | h) | h) | h) | h <;> subst h <;> decide

theorem catchTok_word : catchTok.all wordChar = true := by decide

theorem catchTok_drop_word (k : Nat) (hk : k < 5) :
    wordOpt (catchTok.drop k).head? = true := by
  interval_cases k <;> decide

theorem catchTok_drop_ne (k : Nat) (hk : k < 5) : catchTok.drop k ≠ [] := by
  interval_cases k <;> decide

theorem catchRep_expand (v Y : Line) :
    catchRep v ++ Y = 'c':: 'a':: 't':: 'c':: 'h':: ' ':: '(':: '_'::(v ++ ([rpar] ++ Y)) := by
  unfold catchRep
  simp [List.append_assoc]

theorem head_space_lpar (sp : Line) (hsp : sp.all pySpace = true) (R : Line) :
    wordOpt ((sp ++ (lpar :: R)).head?) = false := by
  cases sp with
  | nil =>
    rw [List.nil_append]
    show wordOpt (some lpar) = false
    decide
  | cons c cs =>
    rw [List.all_cons] at hsp
    exact space_not_word c (band_true hsp).1

theorem head_space_rpar (sp : Line) (hsp : sp.all pySpace = true) (R : Line) :
    wordOpt ((sp ++ (rpar :: R)).head?) = false := by
  cases sp with
  | nil =>
    rw [List.nil_append]
    show wordOpt (some rpar) = false
    decide
  | cons c cs =>
    rw [List.all_cons] at hsp
    exact space_not_word c (band_true hsp).1

theorem isPre_eq_of_length : ∀ (u t : Line), isPre u t = true → u.length = t.length →
    u = t := by
  intro u
  induction u with
  | nil =>
    intro t _ hl
    cases t with
    | nil => rfl
    | cons b bs => simp at hl
  | cons a as ih =>
    intro t h hl
    cases t with
    | nil => cases h
    | cons b bs =>
      rw [isPre_cons_cons] at h
      simp only [List.length_cons] at hl
      rw [eq_of_beq (band_true h).1, ih bs (band_true h).2 (by omega)]

theorem matchWordAt_construct (v : Line) (hv : v ≠ []) (hw : v.all wordChar = true)
    (p : Option Char) (hp : wordOpt p = false) (X : Line) (hX : wordOpt X.head? = false) :
    matchWordAt v p (v ++ X) = true := by
  unfold matchWordAt
  rw [isPre_append_self, List.drop_left]
  have h1 : boundary p v.head? = true := by
    unfold boundary
    rw [hp, head?_word v hv hw]
    rfl
  have h2 : boundary v.getLast? X.head? = true := by
    unfold boundary
    rw [getLast?_word v hv hw, hX]
    rfl
  rw [h1, h2]
  rfl

theorem matchWordAt_false_of_nonword_head (u : Line) (hu : u ≠ [])
    (hw : u.all wordChar = true) (x : Char) (hx : wordChar x = false)
    (p : Option Char) (X : Line) : matchWordAt u p (x :: X) = false := by
  cases u with
  | nil => exact absurd rfl hu
  | cons a as =>
    rw [List.all_cons] at hw
    have hax : (a == x) = false := by
      refine beq_eq_false_iff_ne.mpr ?_
      intro he
      rw [he, hx] at hw
      cases band_true hw |>.1
    unfold matchWordAt
    rw [isPre_cons_cons, hax]
    simp

theorem matchWordAt_catchblock_false (u : Line) (hu : u ≠ [])
    (hw : u.all wordChar = true) (hne : u ≠ catchTok) (p : Option Char) (R : Line) :
    matchWordAt u p (catchTok ++ (' ' :: R)) = false := by
  by_cases hpre : isPre u (catchTok ++ (' ' :: R)) = true
  · have hle : u.length ≤ catchTok.length :=
      isPre_all_imp_le wordChar catchTok u ' ' R hpre hw (by decide) catchTok_word
    have hlt : u.length < 5 := by
      rcases Nat.lt_or_ge u.length 5 with h5 | h5
      · exact h5
      · have hlen : u.length = 5 := by
          have : catchTok.length = 5 := rfl
          omega
        have hPreTok : isPre u catchTok = true :=
          isPre_of_isPre_append u catchTok (' ' :: R) hpre hle
        have heq : u = catchTok := isPre_eq_of_length u catchTok hPreTok (by rw [hlen]; rfl)
        exact absurd heq hne
    have hdrop : ((catchTok ++ (' ' :: R)).drop u.length).head? =
        (catchTok.drop u.length).head? := by
      rw [List.drop_append_eq_append_drop, Nat.sub_eq_zero_of_le hle, List.drop_zero]
      cases hcd : catchTok.drop u.length with
      | nil => exact absurd hcd (catchTok_drop_ne u.length hlt)
      | cons d ds => rfl
    unfold matchWordAt
    have hb : boundary u.getLast? ((catchTok ++ (' ' :: R)).drop u.length).head? = false := by
      unfold boundary
      rw [hdrop, getLast?_word u hu hw, catchTok_drop_word u.length hlt]
      rfl
    rw [hb]
    simp
  · unfold matchWordAt
    have hp2 : isPre u (catchTok ++ (' ' :: R)) = false := by
      revert hpre
      cases isPre u (catchTok ++ (' ' :: R)) <;> simp
    rw [hp2]
    simp

theorem matchCatch_imp_matchWord_catchTok (v : Line) (hv : v ≠ []) (p : Option Char)
    (s : Line) (n : Nat) (h : matchCatchLen v p s = some n) :
    matchWordAt catchTok p s = true := by
  obtain ⟨sp1, sp2, sp3, rest, hs, hsp1, _, _, hb, _⟩ :=
    matchCatchLen_decomp v hv p s n h
  have hs2 : s = catchTok ++ (sp1 ++ (lpar :: (sp2 ++ v ++ sp3 ++ [rpar] ++ rest))) := by
    rw [hs]
    simp [List.append_assoc]
  subst hs2
  unfold matchWordAt
  rw [isPre_append_self]
  have h5 : catchTok.length = 5 := rfl
  have hd : (catchTok ++ (sp1 ++ (lpar :: (sp2 ++ v ++ sp3 ++ [rpar] ++ rest)))).drop
      catchTok.length = sp1 ++ (lpar :: (sp2 ++ v ++ sp3 ++ [rpar] ++ rest)) :=
    List.drop_left _ _
  rw [hd]
  have hb1 : boundary p catchTok.head? = true := hb
  have hb2 : boundary catchTok.getLast?
      ((sp1 ++ (lpar :: (sp2 ++ v ++ sp3 ++ [rpar] ++ rest)))).head? = true := by
    unfold boundary
    rw [head_space_lpar sp1 hsp1]
    decide
  rw [hb1, hb2]
  rfl

theorem matchCatchLen_lpUnd_none (a : Char) (as : Line) (ha : (a == '_') = false)
    (p : Option Char) (Z : Line) :
    matchCatchLen (a :: as) p ('c':: 'a':: 't':: 'c':: 'h':: ' ':: '(':: '_'::Z) = none := by
  cases hm : matchCatchLen (a :: as) p ('c':: 'a':: 't':: 'c':: 'h':: ' ':: '(':: '_'::Z) with
  | none => rfl
  | some n =>
    obtain ⟨sp1, sp2, sp3, rest, hs, hsp1, hsp2, _, _, _⟩ :=
      matchCatchLen_decomp (a :: as) (List.cons_ne_nil a as) p _ n hm
    have hs2 : ' ':: '(':: '_'::Z =
        sp1 ++ (lpar :: (sp2 ++ ((a :: as) ++ (sp3 ++ ([rpar] ++ rest))))) := by
      have := hs
      simp only [List.append_assoc] at this
      have h5 : catchTok = ['c', 'a', 't', 'c', 'h'] := rfl
      rw [h5] at this
      simp only [List.cons_append, List.nil_append] at this
      exact (List.cons.inj ((List.cons.inj ((List.cons.inj ((List.cons.inj
        ((List.cons.inj this).2)).2)).2)).2)).2
    have hsp1e : sp1 = [' '] := by
      have ht := congrArg (List.takeWhile pySpace) hs2
      have h1 : (' ':: '(':: '_'::Z).takeWhile pySpace = [' '] := by
        rw [List.takeWhile_cons]
        have hx1 : pySpace ' ' = true := by decide
        rw [hx1]
        simp only [if_true]
        rw [List.takeWhile_cons]
        have hx2 : pySpace '(' = false := by decide
        rw [hx2]
        simp
      have h2 : (sp1 ++ (lpar :: (sp2 ++ ((a :: as) ++ (sp3 ++ ([rpar] ++
          rest)))))).takeWhile pySpace = sp1 :=
        takeWhile_all_append pySpace sp1 lpar _ hsp1 (by decide)
      rw [h1, h2] at ht
      exact ht.symm
    rw [hsp1e] at hs2
    simp only [List.cons_append, List.nil_append] at hs2
    have hs3 : '_'::Z = sp2 ++ ((a :: as) ++ (sp3 ++ ([rpar] ++ rest))) := by
      have h1 := (List.cons.inj hs2).2
      have hlp : lpar = '(' := rfl
      exact (List.cons.inj h1).2
    cases sp2 with
    | cons d ds =>
      rw [List.cons_append] at hs3
      have hd := (List.cons.inj hs3).1
      rw [List.all_cons] at hsp2
      have := space_ne_und d (band_true hsp2).1
      rw [← hd] at this
      simp at this
    | nil =>
      rw [List.nil_append, List.cons_append] at hs3
      have hd := (List.cons.inj hs3).1
      rw [← hd] at ha
      simp at ha

/-! ### Catch-scanner walking lemmas -/

theorem scGo_skip (v : Line) (a : Line) :
    ∀ (prev : Option Char) (X : Line),
      scGo v a.length prev (a ++ X) = scGo v 0 (lastO prev a) X := by
  induction a with
  | nil => intro prev X; rfl
  | cons c a ih => intro prev X; exact ih (some c) X

theorem scGo_copy_word (v : Line) (u : Line) :
    ∀ (prev : Option Char) (X : Line), u.all wordChar = true → wordOpt prev = true →
      scGo v 0 prev (u ++ X) = u ++ scGo v 0 (lastO prev u) X := by
  induction u with
  | nil => intro prev X _ _; rfl
  | cons c u ih =>
    intro prev X hu hp
    rw [List.all_cons] at hu
    obtain ⟨hc, hu2⟩ := band_true hu
    rw [List.cons_append, scGo_zero, matchCatchLen_none_of_word v prev hp _]
    dsimp only
    rw [ih (some c) X hu2 hc, lastO_cons, List.cons_append]

theorem head_scGo (v : Line) (prev : Option Char) (cs : Line) (hp : wordOpt prev = true) :
    (scGo v 0 prev cs).head? = cs.head? := by
  cases cs with
  | nil => rw [scGo_nil]
  | cons c cs =>
    rw [scGo_zero, matchCatchLen_none_of_word v prev hp _]
    rfl

theorem scGo_eq_of_noC (v : Line) : ∀ (s : Line) (prev : Option Char),
    noC v prev s = true → scGo v 0 prev s = s := by
  intro s
  induction s with
  | nil => intro prev _; rfl
  | cons c cs ih =>
    intro prev h
    rw [noC_cons] at h
    obtain ⟨h1, h2⟩ := band_true h
    have hm : matchCatchLen v prev (c :: cs) = none := by
      revert h1
      cases hx : matchCatchLen v prev (c :: cs) with
      | none => intro _; rfl
      | some n => intro h1; simp at h1
    rw [scGo_zero, hm]
    dsimp only
    rw [ih (some c) h2]

theorem noC_append_word (v : Line) (u : Line) :
    ∀ (prev : Option Char) (X : Line), u.all wordChar = true → wordOpt prev = true →
      noC v prev (u ++ X) = noC v (lastO prev u) X := by
  induction u with
  | nil => intro prev X _ _; rfl
  | cons c u ih =>
    intro prev X hu hp
    rw [List.all_cons] at hu
    obtain ⟨hc, hu2⟩ := band_true hu
    rw [List.cons_append, noC_cons, matchCatchLen_none_of_word v prev hp _]
    simp only [Option.isSome_none, Bool.not_false, Bool.true_and]
    rw [ih (some c) X hu2 hc, lastO_cons]

theorem noC_append_elim (v : Line) (a : Line) :
    ∀ (prev : Option Char) (X : Line), noC v prev (a ++ X) = true →
      noC v (lastO prev a) X = true := by
  induction a with
  | nil => intro prev X h; exact h
  | cons c a ih =>
    intro prev X h
    rw [List.cons_append, noC_cons] at h
    exact ih (some c) X (band_true h).2

theorem noC_of_noM (v : Line) (hv : v ≠ []) (hw : v.all wordChar = true) :
    ∀ (s : Line) (prev : Option Char), noM v prev s = true → noC v prev s = true := by
  intro s
  induction s with
  | nil => intro prev _; rfl
  | cons c cs ih =>
    intro prev h
    have h2 : noM v (some c) cs = true := by
      rw [noM_cons] at h
      exact (band_true h).2
    rw [noC_cons]
    have hm : (matchCatchLen v prev (c :: cs)).isSome = false := by
      cases hx : matchCatchLen v prev (c :: cs) with
      | none => rfl
      | some n =>
        exfalso
        obtain ⟨sp1, sp2, sp3, rest, hs, hsp1, hsp2, hsp3, hb, hn⟩ :=
          matchCatchLen_decomp v hv prev _ n hx
        have hs2 : c :: cs =
            (catchTok ++ sp1 ++ [lpar] ++ sp2) ++ (v ++ (sp3 ++ ([rpar] ++ rest))) := by
          rw [hs]
          simp [List.append_assoc]
        have hnoM2 : noM v (lastO prev (catchTok ++ sp1 ++ [lpar] ++ sp2))
            (v ++ (sp3 ++ ([rpar] ++ rest))) = true := by
          refine noM_append_elim v _ prev _ ?_
          rw [← hs2]
          exact h
        have hlastA : lastO prev (catchTok ++ sp1 ++ [lpar]) = some lpar := by
          rw [lastO_append]
          rfl
        have hprev2 : wordOpt (lastO prev (catchTok ++ sp1 ++ [lpar] ++ sp2)) = false := by
          rw [lastO_append, hlastA]
          exact lastO_space sp2 hsp2 (some lpar) (by decide)
        have hXr : sp3 ++ ([rpar] ++ rest) = sp3 ++ (rpar :: rest) := rfl
        have hX2 : wordOpt ((sp3 ++ ([rpar] ++ rest)).head?) = false := by
          rw [hXr]
          exact head_space_rpar sp3 hsp3 rest
        have hmw := matchWordAt_construct v hv hw
          (lastO prev (catchTok ++ sp1 ++ [lpar] ++ sp2)) hprev2
          (sp3 ++ ([rpar] ++ rest)) hX2
        cases hv2 : v with
        | nil => exact hv hv2
        | cons d vt =>
          rw [hv2] at hnoM2 hmw
          rw [List.cons_append, noM_cons] at hnoM2
          have h1 := (band_true hnoM2).1
          rw [List.cons_append] at hmw
          rw [hmw] at h1
          cases h1
    rw [hm]
    simp only [Bool.not_false, Bool.true_and]
    exact ih (some c) h2

theorem noC_any_of_noM_catch (v2 : Line) (hv2 : v2 ≠ []) :
    ∀ (s : Line) (prev : Option Char), noM catchTok prev s = true →
      noC v2 prev s = true := by
  intro s
  induction s with
  | nil => intro prev _; rfl
  | cons c cs ih =>
    intro prev h
    rw [noM_cons] at h
    obtain ⟨h1, h2⟩ := band_true h
    rw [noC_cons]
    have hm : (matchCatchLen v2 prev (c :: cs)).isSome = false := by
      cases hx : matchCatchLen v2 prev (c :: cs) with
      | none => rfl
      | some n =>
        have hmw := matchCatch_imp_matchWord_catchTok v2 hv2 prev _ n hx
        rw [hmw] at h1
        cases h1
    rw [hm]
    simp only [Bool.not_false, Bool.true_and]
    exact ih (some c) h2

theorem scGo_match_eq (v : Line) (hv : v ≠ []) (prev : Option Char) (c : Char) (cs : Line)
    (n : Nat) (hm : matchCatchLen v prev (c :: cs) = some n) :
    scGo v 0 prev (c :: cs) = catchRep v ++ scGo v 0 (some rpar) ((c :: cs).drop n) := by
  obtain ⟨sp1, sp2, sp3, rest, hs, _, _, _, _, hn⟩ :=
    matchCatchLen_decomp v hv prev (c :: cs) n hm
  have hlenP : (catchTok ++ sp1 ++ [lpar] ++ sp2 ++ v ++ sp3 ++ [rpar]).length = n := by
    simp only [List.length_append, List.length_cons, List.length_nil]
    have h5 : catchTok.length = 5 := rfl
    rw [h5]
    omega
  have hdrop : (c :: cs).drop n = rest := by
    rw [hs, ← hlenP]
    exact List.drop_left _ _
  cases hcT : catchTok ++ sp1 ++ [lpar] ++ sp2 ++ v ++ sp3 ++ [rpar] with
  | nil =>
    rw [hcT] at hlenP
    simp at hlenP
    omega
  | cons p0 Ptail =>
    have hs3 : c :: cs = p0 :: (Ptail ++ rest) := by
      rw [hs, hcT]
      rfl
    have hc0 : c = p0 := (List.cons.inj hs3).1
    have hcs : cs = Ptail ++ rest := (List.cons.inj hs3).2
    have hlPt : Ptail.length = n - 1 := by
      rw [hcT] at hlenP
      simp only [List.length_cons] at hlenP
      omega
    have hlast : lastO (some c) Ptail = some rpar := by
      have e1 : lastO prev (p0 :: Ptail) = lastO (some p0) Ptail := lastO_cons prev p0 Ptail
      have e2 : lastO prev (p0 :: Ptail) = some rpar := by
        rw [← hcT, lastO_append]
        rfl
      rw [hc0, ← e1, e2]
    rw [scGo_zero, hm]
    dsimp only
    rw [hdrop, hcs, ← hlPt, scGo_skip, hlast]

/-! ### Inverting the catch scanner on its output -/

theorem takeWhile_append_keep (p : Char → Bool) (l r : Line) (hl : l.all p = true)
    (hr : ∀ x, r.head? = some x → p x = false) : (l ++ r).takeWhile p = l := by
  induction l with
  | nil =>
    rw [List.nil_append]
    cases r with
    | nil => rfl
    | cons x xs =>
      rw [List.takeWhile_cons, hr x rfl]
      simp
  | cons c cs ih =>
    rw [List.all_cons] at hl
    rw [List.cons_append, List.takeWhile_cons, (band_true hl).1]
    simp only [if_true]
    rw [ih (band_true hl).2]

theorem catchRep_expand2 (v Y : Line) :
    catchRep v ++ Y = catchTok ++ (' '::('('::('_'::(v ++ ([rpar] ++ Y))))) := by
  rw [catchRep_expand]
  rfl

theorem takeWhile_word_catchRep (v2 R : Line) :
    (catchRep v2 ++ R).takeWhile wordChar = catchTok := by
  rw [catchRep_expand2]
  refine takeWhile_append_keep wordChar catchTok _ catchTok_word ?_
  intro x hx
  have hxe : ' ' = x := Option.some.inj hx
  rw [← hxe]
  decide

theorem seg_ne_catchRep (seg : Line) (hseg : seg.all wordChar = true) (sp : Line)
    (hsp : sp.all pySpace = true) (v2 R Z : Line) :
    seg ++ (sp ++ (rpar :: Z)) ≠ catchRep v2 ++ R := by
  intro h
  have ht1 : (seg ++ (sp ++ (rpar :: Z))).takeWhile wordChar = seg := by
    refine takeWhile_append_keep wordChar seg _ hseg ?_
    intro x hx
    cases sp with
    | nil =>
      rw [List.nil_append] at hx
      have hxe : rpar = x := Option.some.inj hx
      rw [← hxe]
      decide
    | cons s0 ss =>
      rw [List.cons_append] at hx
      have hxe : s0 = x := Option.some.inj hx
      rw [List.all_cons] at hsp
      rw [← hxe]
      exact space_not_word s0 (band_true hsp).1
  have hseg2 : seg = catchTok := by
    rw [← ht1, h, takeWhile_word_catchRep]
  subst hseg2
  rw [catchRep_expand2] at h
  have h2 : sp ++ (rpar :: Z) = ' '::('('::('_'::(v2 ++ ([rpar] ++ R)))) :=
    List.append_cancel_left h
  have ht3 : (sp ++ (rpar :: Z)).takeWhile pySpace = sp :=
    takeWhile_all_append pySpace sp rpar Z hsp (by decide)
  have ht4 : ((' '::('('::('_'::(v2 ++ ([rpar] ++ R))))) : Line).takeWhile pySpace =
      [' '] := by
    rw [List.takeWhile_cons]
    have p1 : pySpace ' ' = true := by decide
    rw [p1]
    simp only [if_true]
    rw [List.takeWhile_cons]
    have p2 : pySpace '(' = false := by decide
    rw [p2]
    simp
  have hspe : sp = [' '] := by
    rw [← ht3, h2, ht4]
  subst hspe
  rw [List.singleton_append] at h2
  have h4 := (List.cons.inj h2).2
  have h5 := (List.cons.inj h4).1
  exact absurd h5 (by decide)

theorem scGo_cases (v : Line) (prev : Option Char) (c : Char) (cs : Line) :
    (matchCatchLen v prev (c :: cs) = none ∧
      scGo v 0 prev (c :: cs) = c :: scGo v 0 (some c) cs) ∨
    ∃ n, matchCatchLen v prev (c :: cs) = some n ∧
      scGo v 0 prev (c :: cs) = catchRep v ++ scGo v (n - 1) (some c) cs := by
  cases hm : matchCatchLen v prev (c :: cs) with
  | none =>
    refine Or.inl ⟨rfl, ?_⟩
    rw [scGo_zero, hm]
  | some n =>
    refine Or.inr ⟨n, rfl, ?_⟩
    rw [scGo_zero, hm]

theorem scGo_walk_char (v : Line) (y : Char) (hy : ('c' == y) = false) :
    ∀ (prev : Option Char) (s Z : Line), scGo v 0 prev s = y :: Z →
    ∃ s2, s = y :: s2 ∧ scGo v 0 (some y) s2 = Z := by
  intro prev s Z h
  cases s with
  | nil => rw [scGo_nil] at h; exact absurd h (by simp)
  | cons c cs =>
    rcases scGo_cases v prev c cs with ⟨_, hcopy⟩ | ⟨n, hm, hmatch⟩
    · rw [hcopy] at h
      have hc := (List.cons.inj h).1
      refine ⟨cs, by rw [hc], ?_⟩
      rw [← hc]
      exact (List.cons.inj h).2
    · rw [hmatch, catchRep_expand] at h
      have hcy := (List.cons.inj h).1
      rw [← hcy] at hy
      simp at hy

theorem scGo_walk_c_h (v : Line) (prev : Option Char) (s Z : Line)
    (h : scGo v 0 prev s = 'c':: 'h'::Z) :
    ∃ s2, s = 'c'::s2 ∧ scGo v 0 (some 'c') s2 = 'h'::Z := by
  cases s with
  | nil => rw [scGo_nil] at h; exact absurd h (by simp)
  | cons c cs =>
    rcases scGo_cases v prev c cs with ⟨_, hcopy⟩ | ⟨n, hm, hmatch⟩
    · rw [hcopy] at h
      have hc := (List.cons.inj h).1
      refine ⟨cs, by rw [hc], ?_⟩
      rw [← hc]
      exact (List.cons.inj h).2
    · rw [hmatch, catchRep_expand] at h
      have h2 := (List.cons.inj h).2
      have h3 := (List.cons.inj h2).1
      exact absurd h3 (by decide)

theorem scGo_walk_spaces (v : Line) : ∀ (sp : Line) (prev : Option Char) (s Z : Line),
    sp.all pySpace = true → scGo v 0 prev s = sp ++ Z →
    ∃ s2, s = sp ++ s2 ∧ scGo v 0 (lastO prev sp) s2 = Z := by
  intro sp
  induction sp with
  | nil => intro prev s Z _ h; exact ⟨s, rfl, h⟩
  | cons y sp2 ih =>
    intro prev s Z hsp h
    rw [List.all_cons] at hsp
    obtain ⟨hy, hsp2⟩ := band_true hsp
    rw [List.cons_append] at h
    cases s with
    | nil => rw [scGo_nil] at h; exact absurd h (by simp)
    | cons c cs =>
      rcases scGo_cases v prev c cs with ⟨_, hcopy⟩ | ⟨n, hm, hmatch⟩
      · rw [hcopy] at h
        have hc := (List.cons.inj h).1
        have ht := (List.cons.inj h).2
        rw [hc] at ht
        obtain ⟨s2, hs2, hsc⟩ := ih (some y) cs Z hsp2 ht
        refine ⟨s2, ?_, ?_⟩
        · rw [hc, hs2]
          rfl
        · rw [lastO_cons]
          exact hsc
      · rw [hmatch, catchRep_expand] at h
        have hcy := (List.cons.inj h).1
        have hne := space_ne_c y hy
        rw [← hcy] at hne
        simp at hne

theorem scGo_walk_sp_rpar (v : Line) : ∀ (sp3 : Line) (prev : Option Char) (s Z : Line),
    sp3.all pySpace = true → scGo v 0 prev s = sp3 ++ (rpar :: Z) →
    ∃ s2, s = sp3 ++ (rpar :: s2) ∧ scGo v 0 (some rpar) s2 = Z := by
  intro sp3
  induction sp3 with
  | nil =>
    intro prev s Z _ h
    rw [List.nil_append] at h
    cases s with
    | nil => rw [scGo_nil] at h; exact absurd h (by simp)
    | cons c cs =>
      rcases scGo_cases v prev c cs with ⟨_, hcopy⟩ | ⟨n, hm, hmatch⟩
      · rw [hcopy] at h
        have hc := (List.cons.inj h).1
        refine ⟨cs, ?_, ?_⟩
        · rw [List.nil_append, hc]
        · rw [← hc]
          exact (List.cons.inj h).2
      · rw [hmatch] at h
        exact absurd h.symm (seg_ne_catchRep [] rfl [] rfl v _ Z)
  | cons y sp2 ih =>
    intro prev s Z hsp h
    rw [List.cons_append] at h
    cases s with
    | nil => rw [scGo_nil] at h; exact absurd h (by simp)
    | cons c cs =>
      rcases scGo_cases v prev c cs with ⟨_, hcopy⟩ | ⟨n, hm, hmatch⟩
      · rw [hcopy] at h
        rw [List.all_cons] at hsp
        obtain ⟨hy, hsp2⟩ := band_true hsp
        have hc := (List.cons.inj h).1
        have ht := (List.cons.inj h).2
        rw [hc] at ht
        obtain ⟨s2, hs2, hsc⟩ := ih (some y) cs Z hsp2 ht
        refine ⟨s2, ?_, hsc⟩
        rw [hc, hs2]
        rfl
      · rw [hmatch] at h
        exact absurd h.symm (seg_ne_catchRep [] rfl (y :: sp2) hsp v _ Z)

theorem scGo_walk_word_tail (v : Line) : ∀ (u : Line) (sp3 : Line) (prev : Option Char)
    (s Z : Line), u.all wordChar = true → sp3.all pySpace = true →
    scGo v 0 prev s = u ++ (sp3 ++ (rpar :: Z)) →
    ∃ s2, s = u ++ (sp3 ++ (rpar :: s2)) ∧ scGo v 0 (some rpar) s2 = Z := by
  intro u
  induction u with
  | nil =>
    intro sp3 prev s Z _ hsp3 h
    rw [List.nil_append] at h
    obtain ⟨s2, hs2, hsc⟩ := scGo_walk_sp_rpar v sp3 prev s Z hsp3 h
    refine ⟨s2, ?_, hsc⟩
    rw [List.nil_append]
    exact hs2
  | cons y u2 ih =>
    intro sp3 prev s Z hu hsp3 h
    rw [List.cons_append] at h
    cases s with
    | nil => rw [scGo_nil] at h; exact absurd h (by simp)
    | cons c cs =>
      rcases scGo_cases v prev c cs with ⟨_, hcopy⟩ | ⟨n, hm, hmatch⟩
      · rw [hcopy] at h
        rw [List.all_cons] at hu
        have hc := (List.cons.inj h).1
        have ht := (List.cons.inj h).2
        rw [hc] at ht
        obtain ⟨s2, hs2, hsc⟩ := ih sp3 (some y) cs Z (band_true hu).2 hsp3 ht
        refine ⟨s2, ?_, hsc⟩
        rw [hc, hs2]
        rfl
      · rw [hmatch] at h
        exact absurd h.symm (seg_ne_catchRep (y :: u2) hu sp3 hsp3 v _ Z)

theorem scGo_walk_word_prev (v2 : Line) : ∀ (seg : Line) (prev : Option Char) (s Z : Line),
    seg.all wordChar = true → wordOpt prev = true →
    scGo v2 0 prev s = seg ++ Z →
    ∃ s2, s = seg ++ s2 ∧ scGo v2 0 (lastO prev seg) s2 = Z := by
  intro seg
  induction seg with
  | nil => intro prev s Z _ _ h; exact ⟨s, rfl, h⟩
  | cons y seg2 ih =>
    intro prev s Z hseg hp h
    rw [List.all_cons] at hseg
    obtain ⟨hy, hseg2⟩ := band_true hseg
    rw [List.cons_append] at h
    cases s with
    | nil => rw [scGo_nil] at h; exact absurd h (by simp)
    | cons c cs =>
      have hnm : matchCatchLen v2 prev (c :: cs) = none :=
        matchCatchLen_none_of_word v2 prev hp _
      have hcopy : scGo v2 0 prev (c :: cs) = c :: scGo v2 0 (some c) cs := by
        rw [scGo_zero, hnm]
      rw [hcopy] at h
      have hc := (List.cons.inj h).1
      have ht := (List.cons.inj h).2
      rw [hc] at ht
      obtain ⟨s2, hs2, hsc⟩ := ih (some y) cs Z hseg2 hy ht
      refine ⟨s2, ?_, ?_⟩
      · rw [hc, hs2]
        rfl
      · rw [lastO_cons]
        exact hsc

theorem scGo_shape_rev (v : Line) (sp1 sp2 : Line) (u : Line) (sp3 : Line) (Z cs : Line)
    (hsp1 : sp1.all pySpace = true) (hsp2 : sp2.all pySpace = true)
    (hu : u.all wordChar = true) (hsp3 : sp3.all pySpace = true)
    (h : scGo v 0 (some 'c') cs =
      'a':: 't':: 'c':: 'h'::(sp1 ++ (lpar::(sp2 ++ (u ++ (sp3 ++ (rpar :: Z))))))) :
    ∃ cs2, cs =
      'a':: 't':: 'c':: 'h'::(sp1 ++ (lpar::(sp2 ++ (u ++ (sp3 ++ (rpar :: cs2)))))) := by
  obtain ⟨c1, hc1, h⟩ := scGo_walk_char v 'a' (by decide) (some 'c') cs _ h
  obtain ⟨c2, hc2, h⟩ := scGo_walk_char v 't' (by decide) (some 'a') c1 _ h
  obtain ⟨c3, hc3, h⟩ := scGo_walk_c_h v (some 't') c2 _ h
  obtain ⟨c4, hc4, h⟩ := scGo_walk_char v 'h' (by decide) (some 'c') c3 _ h
  obtain ⟨c5, hc5, h⟩ := scGo_walk_spaces v sp1 (some 'h') c4 _ hsp1 h
  obtain ⟨c6, hc6, h⟩ := scGo_walk_char v lpar (by decide) (lastO (some 'h') sp1) c5 _ h
  obtain ⟨c7, hc7, h⟩ := scGo_walk_spaces v sp2 (some lpar) c6 _ hsp2 h
  obtain ⟨c8, hc8, _⟩ :=
    scGo_walk_word_tail v u sp3 (lastO (some lpar) sp2) c7 Z hu hsp3 h
  refine ⟨c8, ?_⟩
  rw [hc1, hc2, hc3, hc4, hc5, hc6, hc7, hc8]

theorem matchCatchLen_scGo_rev (u : Line) (hu : u ≠ []) (huw : u.all wordChar = true)
    (v2 : Line) (prev : Option Char) (c : Char) (cs : Line)
    (h : (matchCatchLen u prev (c :: scGo v2 0 (some c) cs)).isSome = true) :
    (matchCatchLen u prev (c :: cs)).isSome = true := by
  obtain ⟨n, hn⟩ := Option.isSome_iff_exists.mp h
  obtain ⟨sp1, sp2, sp3, rest, hs, hsp1, hsp2, hsp3, hb, _⟩ :=
    matchCatchLen_decomp u hu prev _ n hn
  have hct : catchTok = ['c','a','t','c','h'] := rfl
  have hs2 : c :: scGo v2 0 (some c) cs =
      'c'::('a':: 't':: 'c':: 'h'::(sp1 ++ (lpar::(sp2 ++ (u ++ (sp3 ++
        (rpar :: rest))))))) := by
    rw [hs, hct]
    simp [List.append_assoc]
  have hc0 : c = 'c' := (List.cons.inj hs2).1
  have ht0 := (List.cons.inj hs2).2
  rw [hc0] at ht0
  obtain ⟨cs2, hcs2⟩ := scGo_shape_rev v2 sp1 sp2 u sp3 rest cs hsp1 hsp2 huw hsp3 ht0
  have hinput : c :: cs =
      catchTok ++ sp1 ++ [lpar] ++ sp2 ++ u ++ sp3 ++ [rpar] ++ cs2 := by
    rw [hc0, hcs2, hct]
    simp [List.append_assoc]
  rw [hinput, matchCatchLen_construct u hu huw prev sp1 sp2 sp3 cs2 hsp1 hsp2 hsp3 hb]
  rfl

theorem matchWordAt_scGo_rev (u : Line) (hu : u ≠ []) (huw : u.all wordChar = true)
    (v2 : Line) (prev : Option Char) (c : Char) (cs : Line)
    (h : matchWordAt u prev (c :: scGo v2 0 (some c) cs) = true) :
    matchWordAt u prev (c :: cs) = true := by
  cases u with
  | nil => exact absurd rfl hu
  | cons a u2 =>
    unfold matchWordAt at h
    obtain ⟨h12, h3⟩ := band_true h
    obtain ⟨h1, h2⟩ := band_true h12
    rw [isPre_cons_cons] at h1
    obtain ⟨hac, hPreD⟩ := band_true h1
    have hceq : a = c := eq_of_beq hac
    rw [List.all_cons] at huw
    obtain ⟨haw, huw2⟩ := band_true huw
    have hcw : wordOpt (some c) = true := by
      show wordChar c = true
      rw [← hceq]
      exact haw
    have hdecD : u2 ++ (scGo v2 0 (some c) cs).drop u2.length = scGo v2 0 (some c) cs :=
      isPre_append_drop u2 _ hPreD
    obtain ⟨cs2, hcs2, hsc⟩ := scGo_walk_word_prev v2 u2 (some c) cs _ huw2 hcw hdecD.symm
    have hq : wordOpt (lastO (some c) u2) = true := lastO_word u2 (some c) hcw huw2
    have hhead2 : ((scGo v2 0 (some c) cs).drop u2.length).head? =
        (cs.drop u2.length).head? := by
      rw [← hsc, head_scGo v2 _ cs2 hq, hcs2, List.drop_left]
    have hdrop1 : (c :: scGo v2 0 (some c) cs).drop (a :: u2).length =
        (scGo v2 0 (some c) cs).drop u2.length := by
      rw [List.length_cons, List.drop_succ_cons]
    have hdrop2 : (c :: cs).drop (a :: u2).length = cs.drop u2.length := by
      rw [List.length_cons, List.drop_succ_cons]
    rw [hdrop1, hhead2] at h3
    have hPre : isPre u2 cs = true := by
      rw [hcs2]
      exact isPre_append_self u2 cs2
    unfold matchWordAt
    rw [isPre_cons_cons, hdrop2, hac, hPre, h2, h3]
    rfl

/-! ### Inverting the word scanner on its output -/

theorem all_mem_space_ne_und (sp : Line) (hsp : sp.all pySpace = true) :
    ∀ x ∈ sp, (x == '_') = false := by
  induction sp with
  | nil => intro x hx; cases hx
  | cons c cs ih =>
    rw [List.all_cons] at hsp
    intro x hx
    rcases List.mem_cons.mp hx with he | hm
    · subst he
      exact space_ne_und x (band_true hsp).1
    · exact ih (band_true hsp).2 x hm

theorem swGo_cases (v2 : Line) (prev : Option Char) (c : Char) (cs : Line) :
    (matchWordAt v2 prev (c :: cs) = false ∧
      swGo v2 ('_'::v2) 0 prev (c :: cs) = c :: swGo v2 ('_'::v2) 0 (some c) cs) ∨
    (matchWordAt v2 prev (c :: cs) = true ∧
      swGo v2 ('_'::v2) 0 prev (c :: cs) =
        ('_'::v2) ++ swGo v2 ('_'::v2) (v2.length - 1) (some c) cs) := by
  cases hm : matchWordAt v2 prev (c :: cs) with
  | false =>
    refine Or.inl ⟨rfl, ?_⟩
    rw [swGo_zero, hm]
    simp
  | true =>
    refine Or.inr ⟨rfl, ?_⟩
    rw [swGo_zero, if_pos hm]

theorem swGo_walk_nonund (v2 : Line) : ∀ (seg : Line),
    (∀ x ∈ seg, (x == '_') = false) → ∀ (prev : Option Char) (s Z : Line),
    swGo v2 ('_'::v2) 0 prev s = seg ++ Z →
    ∃ s2, s = seg ++ s2 ∧ swGo v2 ('_'::v2) 0 (lastO prev seg) s2 = Z := by
  intro seg
  induction seg with
  | nil => intro _ prev s Z h; exact ⟨s, rfl, h⟩
  | cons y seg2 ih =>
    intro hseg prev s Z h
    rw [List.cons_append] at h
    cases s with
    | nil => rw [swGo_nil] at h; exact absurd h (by simp)
    | cons c cs =>
      rcases swGo_cases v2 prev c cs with ⟨_, hcopy⟩ | ⟨hm, hmatch⟩
      · rw [hcopy] at h
        have hc := (List.cons.inj h).1
        have ht := (List.cons.inj h).2
        rw [hc] at ht
        obtain ⟨s2, hs2, hsc⟩ :=
          ih (fun x hx => hseg x (List.mem_cons_of_mem _ hx)) (some y) cs Z ht
        refine ⟨s2, ?_, ?_⟩
        · rw [hc, hs2]
          rfl
        · rw [lastO_cons]
          exact hsc
      · rw [hmatch, List.cons_append] at h
        have hy := (List.cons.inj h).1
        have hne := hseg y (List.mem_cons_self _ _)
        rw [← hy] at hne
        simp at hne

theorem swGo_walk_word (v2 : Line) (hv2 : v2 ≠ []) (hv2w : v2.all wordChar = true) :
    ∀ (seg : Line) (prev : Option Char) (s Z : Line),
      seg.all wordChar = true → swGo v2 ('_'::v2) 0 prev s = seg ++ Z →
      wordOpt prev = true →
      ∃ s2, s = seg ++ s2 ∧ swGo v2 ('_'::v2) 0 (lastO prev seg) s2 = Z := by
  intro seg
  induction seg with
  | nil => intro prev s Z _ h _; exact ⟨s, rfl, h⟩
  | cons y seg2 ih =>
    intro prev s Z hseg h hp
    rw [List.all_cons] at hseg
    obtain ⟨hy, hseg2⟩ := band_true hseg
    rw [List.cons_append] at h
    cases s with
    | nil => rw [swGo_nil] at h; exact absurd h (by simp)
    | cons c cs =>
      have hnm : matchWordAt v2 prev (c :: cs) = false :=
        matchWordAt_false_of_word v2 hv2 hv2w prev hp _
      have hcopy : swGo v2 ('_'::v2) 0 prev (c :: cs) =
          c :: swGo v2 ('_'::v2) 0 (some c) cs := by
        rw [swGo_zero, hnm]
        simp
      rw [hcopy] at h
      have hc := (List.cons.inj h).1
      have ht := (List.cons.inj h).2
      rw [hc] at ht
      obtain ⟨s2, hs2, hsc⟩ := ih (some y) cs Z hseg2 ht hy
      refine ⟨s2, ?_, ?_⟩
      · rw [hc, hs2]
        rfl
      · rw [lastO_cons]
        exact hsc

theorem swGo_shape_rev (v2 : Line) (hv2 : v2 ≠ []) (hv2w : v2.all wordChar = true)
    (sp1 sp2 : Line) (uh : Char) (ut : Line) (sp3 : Line) (Z cs : Line)
    (hsp1 : sp1.all pySpace = true) (hsp2 : sp2.all pySpace = true)
    (huh : wordChar uh = true) (hut : ut.all wordChar = true)
    (hnu : (uh == '_') = false) (hsp3 : sp3.all pySpace = true)
    (h : swGo v2 ('_'::v2) 0 (some 'c') cs =
      'a':: 't':: 'c':: 'h'::(sp1 ++ (lpar::(sp2 ++ ((uh :: ut) ++
        (sp3 ++ (rpar :: Z))))))) :
    ∃ cs2, cs =
      'a':: 't':: 'c':: 'h'::(sp1 ++ (lpar::(sp2 ++ ((uh :: ut) ++
        (sp3 ++ (rpar :: cs2)))))) := by
  obtain ⟨c1, hc1, h⟩ := swGo_walk_nonund v2 ['a','t','c','h'] (by decide) (some 'c') cs _ h
  obtain ⟨c2, hc2, h⟩ := swGo_walk_nonund v2 sp1 (all_mem_space_ne_und sp1 hsp1) _ c1 _ h
  obtain ⟨c3, hc3, h⟩ := swGo_walk_nonund v2 [lpar] (by decide) _ c2 _ h
  obtain ⟨c4, hc4, h⟩ := swGo_walk_nonund v2 sp2 (all_mem_space_ne_und sp2 hsp2) _ c3 _ h
  have hcond5 : ∀ x ∈ ([uh] : Line), (x == '_') = false := by
    intro x hx
    have hxe : x = uh := List.mem_singleton.mp hx
    rw [hxe]
    exact hnu
  obtain ⟨c5, hc5, h⟩ := swGo_walk_nonund v2 [uh] hcond5 _ c4 _ h
  obtain ⟨c6, hc6, h⟩ := swGo_walk_word v2 hv2 hv2w ut _ c5 _ hut h huh
  obtain ⟨c7, hc7, h⟩ := swGo_walk_nonund v2 sp3 (all_mem_space_ne_und sp3 hsp3) _ c6 _ h
  obtain ⟨c8, hc8, _⟩ := swGo_walk_nonund v2 [rpar] (by decide) _ c7 _ h
  refine ⟨c8, ?_⟩
  rw [hc1, hc2, hc3, hc4, hc5, hc6, hc7, hc8]
  simp [List.append_assoc]

theorem matchCatchLen_swGo_rev (u : Line) (hu : u ≠ []) (huw : u.all wordChar = true)
    (hnu : u.head? ≠ some '_') (v2 : Line) (hv2 : v2 ≠ []) (hv2w : v2.all wordChar = true)
    (prev : Option Char) (c : Char) (cs : Line)
    (h : (matchCatchLen u prev (c :: swGo v2 ('_'::v2) 0 (some c) cs)).isSome = true) :
    (matchCatchLen u prev (c :: cs)).isSome = true := by
  obtain ⟨n, hn⟩ := Option.isSome_iff_exists.mp h
  obtain ⟨sp1, sp2, sp3, rest, hs, hsp1, hsp2, hsp3, hb, _⟩ :=
    matchCatchLen_decomp u hu prev _ n hn
  have hct : catchTok = ['c','a','t','c','h'] := rfl
  cases hue : u with
  | nil => exact absurd hue hu
  | cons uh ut =>
    rw [hue] at hs huw
    rw [List.all_cons] at huw
    obtain ⟨huh, hut⟩ := band_true huw
    have hnuh : (uh == '_') = false := by
      refine beq_eq_false_iff_ne.mpr ?_
      intro he
      refine hnu ?_
      rw [hue, he]
      rfl
    have hs2 : c :: swGo v2 ('_'::v2) 0 (some c) cs =
        'c'::('a':: 't':: 'c':: 'h'::(sp1 ++ (lpar::(sp2 ++ ((uh :: ut) ++
          (sp3 ++ (rpar :: rest))))))) := by
      rw [hs, hct]
      simp [List.append_assoc]
    have hc0 : c = 'c' := (List.cons.inj hs2).1
    have ht0 := (List.cons.inj hs2).2
    rw [hc0] at ht0
    obtain ⟨cs2, hcs2⟩ := swGo_shape_rev v2 hv2 hv2w sp1 sp2 uh ut sp3 rest cs
      hsp1 hsp2 huh hut hnuh hsp3 ht0
    have hinput : c :: cs =
        catchTok ++ sp1 ++ [lpar] ++ sp2 ++ (uh :: ut) ++ sp3 ++ [rpar] ++ cs2 := by
      rw [hc0, hcs2, hct]
      simp [List.append_assoc]
    rw [hinput, matchCatchLen_construct (uh :: ut) (List.cons_ne_nil uh ut)
      (by rw [List.all_cons, huh, hut]; rfl) prev sp1 sp2 sp3 cs2 hsp1 hsp2 hsp3 hb]
    rfl


/-! ### Invariant preservation under the two substitutions -/

theorem matchCatchLen_catchRep_none (a : Char) (as : Line) (ha : (a == '_') = false)
    (p : Option Char) (v2 Y : Line) :
    matchCatchLen (a :: as) p (catchRep v2 ++ Y) = none := by
  rw [catchRep_expand]
  exact matchCatchLen_lpUnd_none a as ha p _

theorem noC_catchRep (u : Line) (hu : u ≠ []) (hnu : u.head? ≠ some '_')
    (v2 : Line) (hv2w : v2.all wordChar = true) (prev : Option Char) (Y : Line)
    (hY : noC u (some rpar) Y = true) : noC u prev (catchRep v2 ++ Y) = true := by
  cases hue : u with
  | nil => exact absurd hue hu
  | cons a as =>
    subst hue
    have ha : (a == '_') = false := by
      refine beq_eq_false_iff_ne.mpr ?_
      intro he
      refine hnu ?_
      rw [he]
      rfl
    rw [catchRep_expand]
    rw [noC_cons, matchCatchLen_lpUnd_none a as ha prev _]
    simp only [Option.isSome_none, Bool.not_false, Bool.true_and]
    rw [noC_cons, matchCatchLen_none_of_head (a :: as) (some 'c') 'a' (by decide) _]
    simp only [Option.isSome_none, Bool.not_false, Bool.true_and]
    rw [noC_cons, matchCatchLen_none_of_head (a :: as) (some 'a') 't' (by decide) _]
    simp only [Option.isSome_none, Bool.not_false, Bool.true_and]
    rw [noC_cons, matchCatchLen_none_of_word (a :: as) (some 't') (by decide) _]
    simp only [Option.isSome_none, Bool.not_false, Bool.true_and]
    rw [noC_cons, matchCatchLen_none_of_head (a :: as) (some 'c') 'h' (by decide) _]
    simp only [Option.isSome_none, Bool.not_false, Bool.true_and]
    rw [noC_cons, matchCatchLen_none_of_head (a :: as) (some 'h') ' ' (by decide) _]
    simp only [Option.isSome_none, Bool.not_false, Bool.true_and]
    rw [noC_cons, matchCatchLen_none_of_head (a :: as) (some ' ') '(' (by decide) _]
    simp only [Option.isSome_none, Bool.not_false, Bool.true_and]
    rw [noC_cons, matchCatchLen_none_of_head (a :: as) (some '(') '_' (by decide) _]
    simp only [Option.isSome_none, Bool.not_false, Bool.true_and]
    rw [noC_append_word (a :: as) v2 (some '_') _ hv2w (by decide)]
    show noC (a :: as) (lastO (some '_') v2) (rpar :: Y) = true
    rw [noC_cons]
    rw [matchCatchLen_none_of_head (a :: as) (lastO (some '_') v2) rpar (by decide) _]
    simp only [Option.isSome_none, Bool.not_false, Bool.true_and]
    exact hY

theorem noC_scGo_self (v : Line) (hv : v ≠ []) (hw : v.all wordChar = true)
    (hnu : v.head? ≠ some '_') :
    ∀ (n : Nat) (s : Line), s.length ≤ n → ∀ prev : Option Char,
      noC v prev (scGo v 0 prev s) = true := by
  intro n
  induction n with
  | zero =>
    intro s hsn prev
    have hnil : s = [] := List.length_eq_zero.mp (Nat.le_zero.mp hsn)
    subst hnil
    rw [scGo_nil, noC_nil]
  | succ n ih =>
    intro s hsn prev
    cases s with
    | nil => rw [scGo_nil, noC_nil]
    | cons c cs =>
      cases hm : matchCatchLen v prev (c :: cs) with
      | some k =>
        rw [scGo_match_eq v hv prev c cs k hm]
        refine noC_catchRep v hv hnu v hw prev _ ?_
        have hk7 : 7 ≤ k := by
          obtain ⟨sp1, sp2, sp3, rest, _, _, _, _, _, hkn⟩ :=
            matchCatchLen_decomp v hv prev _ k hm
          omega
        refine ih ((c :: cs).drop k) ?_ (some rpar)
        rw [List.length_drop]
        simp only [List.length_cons] at hsn ⊢
        omega
      | none =>
        have hcopy : scGo v 0 prev (c :: cs) = c :: scGo v 0 (some c) cs := by
          rw [scGo_zero, hm]
        rw [hcopy, noC_cons]
        have hhead : (matchCatchLen v prev (c :: scGo v 0 (some c) cs)).isSome = false := by
          cases hx : (matchCatchLen v prev (c :: scGo v 0 (some c) cs)).isSome with
          | false => rfl
          | true =>
            have hr := matchCatchLen_scGo_rev v hv hw v prev c cs hx
            rw [hm] at hr
            simp at hr
        rw [hhead]
        simp only [Bool.not_false, Bool.true_and]
        exact ih cs (Nat.le_of_succ_le_succ hsn) (some c)

theorem noC_preserved_swGo (u : Line) (hu : u ≠ []) (huw : u.all wordChar = true)
    (hnu : u.head? ≠ some '_') (v2 : Line) (hv2 : v2 ≠ []) (hv2w : v2.all wordChar = true) :
    ∀ (n : Nat) (s : Line), s.length ≤ n → ∀ prev : Option Char,
      noC u prev s = true → noC u prev (swGo v2 ('_'::v2) 0 prev s) = true := by
  intro n
  induction n with
  | zero =>
    intro s hsn prev _
    have hnil : s = [] := List.length_eq_zero.mp (Nat.le_zero.mp hsn)
    subst hnil
    rw [swGo_nil, noC_nil]
  | succ n ih =>
    intro s hsn prev hnoC
    cases s with
    | nil => rw [swGo_nil, noC_nil]
    | cons c cs =>
      by_cases hm : matchWordAt v2 prev (c :: cs) = true
      · rw [swGo_match_eq v2 ('_'::v2) hv2 prev c cs hm]
        rw [List.cons_append, noC_cons]
        rw [matchCatchLen_none_of_head u prev '_' (by decide) _]
        simp only [Option.isSome_none, Bool.not_false, Bool.true_and]
        rw [noC_append_word u v2 (some '_') _ hv2w (by decide)]
        rw [lastO_of_ne_nil v2 hv2 (some '_') prev]
        have hPre : isPre v2 (c :: cs) = true := matchWordAt_isPre v2 prev _ hm
        have hdec : v2 ++ (c :: cs).drop v2.length = c :: cs := isPre_append_drop v2 _ hPre
        have hX : noC u (lastO prev v2) ((c :: cs).drop v2.length) = true := by
          refine noC_append_elim u v2 prev _ ?_
          rw [hdec]
          exact hnoC
        refine ih ((c :: cs).drop v2.length) ?_ (lastO prev v2) hX
        have hv1 : 1 ≤ v2.length := by
          cases v2 with
          | nil => exact absurd rfl hv2
          | cons a as => simp
        rw [List.length_drop]
        simp only [List.length_cons] at hsn ⊢
        omega
      · have hm2 : matchWordAt v2 prev (c :: cs) = false := by
          revert hm
          cases matchWordAt v2 prev (c :: cs) <;> simp
        rw [swGo_zero, hm2]
        simp only [Bool.false_eq_true, if_false]
        rw [noC_cons] at hnoC ⊢
        obtain ⟨h1, h2⟩ := band_true hnoC
        have hhead : (matchCatchLen u prev
            (c :: swGo v2 ('_'::v2) 0 (some c) cs)).isSome = false := by
          cases hx : (matchCatchLen u prev
              (c :: swGo v2 ('_'::v2) 0 (some c) cs)).isSome with
          | false => rfl
          | true =>
            have hr := matchCatchLen_swGo_rev u hu huw hnu v2 hv2 hv2w prev c cs hx
            rw [hr] at h1
            simp at h1
        rw [hhead]
        simp only [Bool.not_false, Bool.true_and]
        exact ih cs (Nat.le_of_succ_le_succ hsn) (some c) h2

theorem noC_preserved_scGo (u : Line) (hu : u ≠ []) (huw : u.all wordChar = true)
    (hnu : u.head? ≠ some '_') (v2 : Line) (hv2 : v2 ≠ []) (hv2w : v2.all wordChar = true) :
    ∀ (n : Nat) (s : Line), s.length ≤ n → ∀ prev : Option Char,
      noC u prev s = true → noC u prev (scGo v2 0 prev s) = true := by
  intro n
  induction n with
  | zero =>
    intro s hsn prev _
    have hnil : s = [] := List.length_eq_zero.mp (Nat.le_zero.mp hsn)
    subst hnil
    rw [scGo_nil, noC_nil]
  | succ n ih =>
    intro s hsn prev hnoC
    cases s with
    | nil => rw [scGo_nil, noC_nil]
    | cons c cs =>
      cases hm : matchCatchLen v2 prev (c :: cs) with
      | some k =>
        rw [scGo_match_eq v2 hv2 prev c cs k hm]
        obtain ⟨sp1, sp2, sp3, rest, hsd, hsp1, hsp2, hsp3, hb, hkn⟩ :=
          matchCatchLen_decomp v2 hv2 prev _ k hm
        have hlenP : (catchTok ++ sp1 ++ [lpar] ++ sp2 ++ v2 ++ sp3 ++ [rpar]).length
            = k := by
          simp only [List.length_append, List.length_cons, List.length_nil]
          have h5 : catchTok.length = 5 := rfl
          rw [h5]
          omega
        have hdrop : (c :: cs).drop k = rest := by
          rw [hsd, ← hlenP]
          exact List.drop_left _ _
        have hlast : lastO prev (catchTok ++ sp1 ++ [lpar] ++ sp2 ++ v2 ++ sp3 ++ [rpar])
            = some rpar := by
          rw [lastO_append]
          rfl
        have hApp : noC u prev ((catchTok ++ sp1 ++ [lpar] ++ sp2 ++ v2 ++ sp3 ++ [rpar])
            ++ rest) = true := by
          rw [← hsd]
          exact hnoC
        have hX : noC u (some rpar) rest = true := by
          have h2 := noC_append_elim u _ prev rest hApp
          rw [hlast] at h2
          exact h2
        rw [hdrop]
        refine noC_catchRep u hu hnu v2 hv2w prev _ ?_
        have hslen := congrArg List.length hsd
        rw [List.length_append, hlenP, List.length_cons] at hslen
        simp only [List.length_cons] at hsn
        refine ih rest ?_ (some rpar) hX
        omega
      | none =>
        have hcopy : scGo v2 0 prev (c :: cs) = c :: scGo v2 0 (some c) cs := by
          rw [scGo_zero, hm]
        rw [hcopy]
        rw [noC_cons] at hnoC ⊢
        obtain ⟨h1, h2⟩ := band_true hnoC
        have hhead : (matchCatchLen u prev (c :: scGo v2 0 (some c) cs)).isSome
            = false := by
          cases hx : (matchCatchLen u prev (c :: scGo v2 0 (some c) cs)).isSome with
          | false => rfl
          | true =>
            have hr := matchCatchLen_scGo_rev u hu huw v2 prev c cs hx
            rw [hr] at h1
            simp at h1
        rw [hhead]
        simp only [Bool.not_false, Bool.true_and]
        exact ih cs (Nat.le_of_succ_le_succ hsn) (some c) h2

theorem noM_preserved_scGo (u : Line) (hu : u ≠ []) (huw : u.all wordChar = true)
    (hnu : u.head? ≠ some '_') (v2 : Line) (hv2 : v2 ≠ []) (hv2w : v2.all wordChar = true) :
    ∀ (n : Nat) (s : Line), s.length ≤ n → ∀ prev : Option Char,
      noM u prev s = true → noM u prev (scGo v2 0 prev s) = true := by
  by_cases hcatch : u = catchTok
  · intro n s _ prev hnoM
    subst hcatch
    rw [scGo_eq_of_noC v2 s prev (noC_any_of_noM_catch v2 hv2 s prev hnoM)]
    exact hnoM
  · intro n
    induction n with
    | zero =>
      intro s hsn prev _
      have hnil : s = [] := List.length_eq_zero.mp (Nat.le_zero.mp hsn)
      subst hnil
      rw [scGo_nil, noM_nil]
    | succ n ih =>
      intro s hsn prev hnoM
      cases s with
      | nil => rw [scGo_nil, noM_nil]
      | cons c cs =>
        cases hm : matchCatchLen v2 prev (c :: cs) with
        | some k =>
          rw [scGo_match_eq v2 hv2 prev c cs k hm]
          obtain ⟨sp1, sp2, sp3, rest, hsd, hsp1, hsp2, hsp3, hb, hkn⟩ :=
            matchCatchLen_decomp v2 hv2 prev _ k hm
          have hlenP : (catchTok ++ sp1 ++ [lpar] ++ sp2 ++ v2 ++ sp3 ++ [rpar]).length
              = k := by
            simp only [List.length_append, List.length_cons, List.length_nil]
            have h5 : catchTok.length = 5 := rfl
            rw [h5]
            omega
          have hdrop : (c :: cs).drop k = rest := by
            rw [hsd, ← hlenP]
            exact List.drop_left _ _
          have hlast : lastO prev
              (catchTok ++ sp1 ++ [lpar] ++ sp2 ++ v2 ++ sp3 ++ [rpar]) = some rpar := by
            rw [lastO_append]
            rfl
          have hApp : noM u prev ((catchTok ++ sp1 ++ [lpar] ++ sp2 ++ v2 ++ sp3 ++
              [rpar]) ++ rest) = true := by
            rw [← hsd]
            exact hnoM
          have hXin : noM u (some rpar) rest = true := by
            have h2 := noM_append_elim u _ prev rest hApp
            rw [hlast] at h2
            exact h2
          have hslen := congrArg List.length hsd
          rw [List.length_append, hlenP, List.length_cons] at hslen
          simp only [List.length_cons] at hsn
          have hY : noM u (some rpar) (scGo v2 0 (some rpar) rest) = true := by
            refine ih rest ?_ (some rpar) hXin
            omega
          rw [hdrop, catchRep_expand]
          have hf0 : matchWordAt u prev
              ('c':: 'a':: 't':: 'c':: 'h'::(' '::('('::('_'::(v2 ++ ([rpar] ++
                scGo v2 0 (some rpar) rest)))))) = false :=
            matchWordAt_catchblock_false u hu huw hcatch prev _
          rw [noM_cons, hf0]
          simp only [Bool.not_false, Bool.true_and]
          rw [noM_cons, matchWordAt_false_of_word u hu huw (some 'c') (by decide) _]
          simp only [Bool.not_false, Bool.true_and]
          rw [noM_cons, matchWordAt_false_of_word u hu huw (some 'a') (by decide) _]
          simp only [Bool.not_false, Bool.true_and]
          rw [noM_cons, matchWordAt_false_of_word u hu huw (some 't') (by decide) _]
          simp only [Bool.not_false, Bool.true_and]
          rw [noM_cons, matchWordAt_false_of_word u hu huw (some 'c') (by decide) _]
          simp only [Bool.not_false, Bool.true_and]
          rw [noM_cons, matchWordAt_false_of_word u hu huw (some 'h') (by decide) _]
          simp only [Bool.not_false, Bool.true_and]
          rw [noM_cons, matchWordAt_false_of_nonword_head u hu huw '(' (by decide)
            (some ' ') _]
          simp only [Bool.not_false, Bool.true_and]
          rw [noM_cons, matchWordAt_underscore_false u hu hnu (some '(') _]
          simp only [Bool.not_false, Bool.true_and]
          rw [noM_append_word u hu huw v2 (some '_') _ hv2w wordOpt_underscore]
          show noM u (lastO (some '_') v2) (rpar :: scGo v2 0 (some rpar) rest) = true
          have hq : wordOpt (lastO (some '_') v2) = true :=
            lastO_word v2 (some '_') wordOpt_underscore hv2w
          rw [noM_cons, matchWordAt_false_of_word u hu huw _ hq _]
          simp only [Bool.not_false, Bool.true_and]
          exact hY
        | none =>
          have hcopy : scGo v2 0 prev (c :: cs) = c :: scGo v2 0 (some c) cs := by
            rw [scGo_zero, hm]
          rw [hcopy]
          rw [noM_cons] at hnoM ⊢
          obtain ⟨h1, h2⟩ := band_true hnoM
          have hhead : matchWordAt u prev (c :: scGo v2 0 (some c) cs) = false := by
            cases hx : matchWordAt u prev (c :: scGo v2 0 (some c) cs) with
            | false => rfl
            | true =>
              have hr := matchWordAt_scGo_rev u hu huw v2 prev c cs hx
              rw [hr] at h1
              simp at h1
          rw [hhead]
          simp only [Bool.not_false, Bool.true_and]
          exact ih cs (Nat.le_of_succ_le_succ hsn) (some c) h2

/-! ### The catch substring survives both substitutions -/

theorem hasSub_catchTok_scGo (v2 : Line) :
    ∀ (s : Line) (prev : Option Char), hasSub catchTok s = true →
      hasSub catchTok (scGo v2 0 prev s) = true := by
  intro s
  induction s with
  | nil => intro prev h; exact h
  | cons c cs ih =>
    intro prev h
    rcases scGo_cases v2 prev c cs with ⟨_, hcopy⟩ | ⟨n, hm, hmatch⟩
    · rw [hcopy]
      unfold hasSub at h
      rcases (Bool.or_eq_true _ _).mp h with h1 | h2
      · have hct : catchTok = 'c' :: (("atch").toList) := rfl
        rw [hct, isPre_cons_cons] at h1
        obtain ⟨hc1, h1b⟩ := band_true h1
        have hcc : c = 'c' := (eq_of_beq hc1).symm
        subst hcc
        have hdec : ("atch").toList ++ cs.drop (("atch").toList).length = cs :=
          isPre_append_drop _ cs h1b
        have hw4 : (("atch").toList).all wordChar = true := by decide
        have hsc : scGo v2 0 (some 'c') cs = ("atch").toList ++
            scGo v2 0 (lastO (some 'c') (("atch").toList))
              (cs.drop (("atch").toList).length) := by
          conv_lhs => rw [← hdec]
          exact scGo_copy_word v2 (("atch").toList) (some 'c') _ hw4 (by decide)
        unfold hasSub
        refine (Bool.or_eq_true _ _).mpr (Or.inl ?_)
        rw [hct, isPre_cons_cons, hsc, isPre_append_self]
        decide
      · have hY := ih (some c) h2
        unfold hasSub
        exact (Bool.or_eq_true _ _).mpr (Or.inr hY)
    · rw [hmatch]
      refine hasSub_of_isPre _ _ ?_
      rw [catchRep_expand2]
      exact isPre_append_self catchTok _

theorem hasSub_catchTok_swGo (v2 : Line) (hv2 : v2 ≠ []) (hv2w : v2.all wordChar = true) :
    ∀ (n : Nat) (s : Line), s.length ≤ n → ∀ prev : Option Char,
      hasSub catchTok s = true → hasSub catchTok (swGo v2 ('_'::v2) 0 prev s) = true := by
  intro n
  induction n with
  | zero =>
    intro s hsn prev h
    have hnil : s = [] := List.length_eq_zero.mp (Nat.le_zero.mp hsn)
    subst hnil
    rw [swGo_nil]
    exact h
  | succ n ih =>
    intro s hsn prev h
    cases s with
    | nil => rw [swGo_nil]; exact h
    | cons c cs =>
      by_cases hm : matchWordAt v2 prev (c :: cs) = true
      · rw [swGo_match_eq v2 ('_'::v2) hv2 prev c cs hm]
        have hPre : isPre v2 (c :: cs) = true := matchWordAt_isPre v2 prev _ hm
        have hdec : v2 ++ (c :: cs).drop v2.length = c :: cs := isPre_append_drop v2 _ hPre
        have h2 : hasSub catchTok (v2 ++ (c :: cs).drop v2.length) = true := by
          rw [hdec]
          exact h
        rcases hasSub_append_cases catchTok v2 _ h2 with ⟨i, hi, hp⟩ | hrest
        · by_cases hfit : i + 5 ≤ v2.length
          · have hPre2 : isPre catchTok (v2.drop i) = true := by
              refine isPre_of_isPre_append catchTok (v2.drop i) _ hp ?_
              rw [List.length_drop]
              have h5 : catchTok.length = 5 := rfl
              rw [h5]
              omega
            have hsubv2 : hasSub catchTok v2 = true := hasSub_intro catchTok v2 i hPre2
            show hasSub catchTok ('_' :: (v2 ++ swGo v2 ('_'::v2) 0 (lastO prev v2)
              ((c :: cs).drop v2.length))) = true
            unfold hasSub
            refine (Bool.or_eq_true _ _).mpr (Or.inr ?_)
            exact hasSub_append_left catchTok v2 _ hsubv2
          · exfalso
            have hA : v2.drop i ≠ [] := by
              intro hq
              have hlq := congrArg List.length hq
              rw [List.length_drop] at hlq
              simp only [List.length_nil] at hlq
              omega
            have hle : (v2.drop i).length ≤ catchTok.length := by
              rw [List.length_drop]
              have h5 : catchTok.length = 5 := rfl
              rw [h5]
              omega
            obtain ⟨htake, hpd⟩ := isPre_append_split (v2.drop i) catchTok _ hp hle
            have hlt5 : (v2.drop i).length < 5 := by
              rw [List.length_drop]
              omega
            have hword := catchTok_drop_word (v2.drop i).length hlt5
            have hne := catchTok_drop_ne (v2.drop i).length hlt5
            cases hcd : catchTok.drop (v2.drop i).length with
            | nil => exact hne hcd
            | cons d ds =>
              rw [hcd] at hpd hword
              have hhead : ((c :: cs).drop v2.length).head? = some d := isPre_head d ds _ hpd
              unfold matchWordAt at hm
              have h3 := (band_true hm).2
              rw [hhead] at h3
              unfold boundary at h3
              rw [getLast?_word v2 hv2 hv2w] at h3
              have hwd : wordOpt (some d) = true := hword
              rw [hwd] at h3
              simp at h3
        · have hv1 : 1 ≤ v2.length := by
            cases v2 with
            | nil => exact absurd rfl hv2
            | cons a as => simp
          have hbound : ((c :: cs).drop v2.length).length ≤ n := by
            rw [List.length_drop]
            simp only [List.length_cons] at hsn ⊢
            omega
          have hY := ih _ hbound (lastO prev v2) hrest
          show hasSub catchTok ('_' :: (v2 ++ swGo v2 ('_'::v2) 0 (lastO prev v2)
            ((c :: cs).drop v2.length))) = true
          unfold hasSub
          refine (Bool.or_eq_true _ _).mpr (Or.inr ?_)
          exact hasSub_append_right catchTok v2 _ hY
      · have hm2 : matchWordAt v2 prev (c :: cs) = false := by
          revert hm
          cases matchWordAt v2 prev (c :: cs) <;> simp
        rw [swGo_zero, hm2]
        simp only [Bool.false_eq_true, if_false]
        unfold hasSub at h
        rcases (Bool.or_eq_true _ _).mp h with h1 | h2
        · have hct : catchTok = 'c' :: (("atch").toList) := rfl
          rw [hct, isPre_cons_cons] at h1
          obtain ⟨hc1, h1b⟩ := band_true h1
          have hcc : c = 'c' := (eq_of_beq hc1).symm
          subst hcc
          have hdec : ("atch").toList ++ cs.drop (("atch").toList).length = cs :=
            isPre_append_drop _ cs h1b
          have hw4 : (("atch").toList).all wordChar = true := by decide
          have hsc : swGo v2 ('_'::v2) 0 (some 'c') cs = ("atch").toList ++
              swGo v2 ('_'::v2) 0 (lastO (some 'c') (("atch").toList))
                (cs.drop (("atch").toList).length) := by
            conv_lhs => rw [← hdec]
            exact swGo_copy_word v2 ('_'::v2) hv2 hv2w (("atch").toList) (some 'c') _
              hw4 (by decide)
          unfold hasSub
          refine (Bool.or_eq_true _ _).mpr (Or.inl ?_)
          rw [hct, isPre_cons_cons, hsc, isPre_append_self]
          decide
        · have hY := ih cs (Nat.le_of_succ_le_succ hsn) (some c) h2
          unfold hasSub
          exact (Bool.or_eq_true _ _).mpr (Or.inr hY)

/-! ### State-level lemmas and claim C4 -/

theorem applyMsg_dispatch (line v message : Line) :
    applyMsgToLine line v message =
      if hasSub catchTok line && hasSub phraseAllowed message then subCatch v line
      else subWord v line := by
  unfold applyMsgToLine
  by_cases h : (hasSub catchTok line && hasSub phraseAllowed message) = true
  · rw [if_pos h, if_pos h]
  · rw [if_neg h, if_neg h]
    split_ifs <;> rfl

theorem applyMsg_id_of_inv (m : Msg) (v : Line) (hv : v ≠ []) (hw : v.all wordChar = true)
    (L : Line) (hinv : msgInv m v L) : applyMsgToLine L v m.message = L := by
  rw [applyMsg_dispatch]
  rcases hinv with hnoM | ⟨hnoC, hcat, hph⟩
  · by_cases hd : (hasSub catchTok L && hasSub phraseAllowed m.message) = true
    · rw [if_pos hd]
      exact scGo_eq_of_noC v L none (noC_of_noM v hv hw L none hnoM)
    · rw [if_neg hd]
      exact swGo_eq_of_noM v ('_'::v) L none hnoM
  · have hd : (hasSub catchTok L && hasSub phraseAllowed m.message) = true := by
      rw [hcat, hph]
      rfl
    rw [if_pos hd]
    exact scGo_eq_of_noC v L none hnoC

theorem msgInv_establish (m : Msg) (v : Line) (hv : v ≠ []) (hw : v.all wordChar = true)
    (hnu : v.head? ≠ some '_') (line : Line) :
    msgInv m v (applyMsgToLine line v m.message) := by
  rw [applyMsg_dispatch]
  by_cases hd : (hasSub catchTok line && hasSub phraseAllowed m.message) = true
  · rw [if_pos hd]
    obtain ⟨hcat, hph⟩ := band_true hd
    refine Or.inr ⟨?_, ?_, hph⟩
    · exact noC_scGo_self v hv hw hnu line.length line le_rfl none
    · exact hasSub_catchTok_scGo v line none hcat
  · rw [if_neg hd]
    exact Or.inl (noM_swGo_self v hv hw hnu line.length line le_rfl none)

theorem msgInv_preserve (m0 : Msg) (u : Line) (hu : u ≠ []) (huw : u.all wordChar = true)
    (hnu : u.head? ≠ some '_') (m2 : Msg) (v2 : Line) (hv2 : v2 ≠ [])
    (hv2w : v2.all wordChar = true) (L : Line) (hinv : msgInv m0 u L) :
    msgInv m0 u (applyMsgToLine L v2 m2.message) := by
  rw [applyMsg_dispatch]
  by_cases hd : (hasSub catchTok L && hasSub phraseAllowed m2.message) = true
  · rw [if_pos hd]
    rcases hinv with hnoM | ⟨hnoC, hcat, hph⟩
    · exact Or.inl (noM_preserved_scGo u hu huw hnu v2 hv2 hv2w L.length L le_rfl none hnoM)
    · refine Or.inr ⟨?_, ?_, hph⟩
      · exact noC_preserved_scGo u hu huw hnu v2 hv2 hv2w L.length L le_rfl none hnoC
      · exact hasSub_catchTok_scGo v2 L none hcat
  · rw [if_neg hd]
    rcases hinv with hnoM | ⟨hnoC, hcat, hph⟩
    · exact Or.inl (noM_preserved_swGo u hu huw hnu v2 hv2 hv2w L.length L le_rfl none hnoM)
    · refine Or.inr ⟨?_, ?_, hph⟩
      · exact noC_preserved_swGo u hu huw hnu v2 hv2 hv2w L.length L le_rfl none hnoC
      · exact hasSub_catchTok_swGo v2 hv2 hv2w L.length L le_rfl none hcat

theorem processMsg_establish (st stA : St) (m : Msg)
    (h : processMsg st m = .ok stA) (v : Line)
    (hf : findVarName m.message = some v) (hu : (v.head? == some '_') = false)
    (hv : v ≠ []) (hw : v.all wordChar = true) :
    ∀ k, pyResolve stA.buf.length (m.line - 1) = some k →
      ∀ line', stA.buf.get? k = some line' → msgInv m v line' := by
  intro k hkA line' hline'
  have hlen : stA.buf.length = st.buf.length := processMsg_length st stA m h
  rw [hlen] at hkA
  obtain ⟨k0, line, hk0, hg0, hcase⟩ := processMsg_view st stA m v hf hu h
  have hkk : k0 = k := by
    rw [hk0] at hkA
    exact Option.some.inj hkA
  subst hkk
  have hnu : v.head? ≠ some '_' := by
    intro hq
    rw [hq] at hu
    simp at hu
  rcases hcase with ⟨heq, hstA⟩ | ⟨hne, hstA⟩
  · subst hstA
    rw [hg0] at hline'
    have hl : line = line' := Option.some.inj hline'
    have hInv := msgInv_establish m v hv hw hnu line
    rw [heq, hl] at hInv
    exact hInv
  · subst hstA
    have hklt : k0 < st.buf.length := pyResolve_lt _ _ _ hk0
    have hset : (st.buf.set k0 (applyMsgToLine line v m.message)).get? k0 =
        some (applyMsgToLine line v m.message) := List.get?_set_eq_of_lt _ hklt
    rw [hset] at hline'
    have hl : applyMsgToLine line v m.message = line' := Option.some.inj hline'
    have hInv := msgInv_establish m v hv hw hnu line
    rw [hl] at hInv
    exact hInv

theorem processMsg_preserve (st stA : St) (m : Msg)
    (hgm : goodM m) (h : processMsg st m = .ok stA)
    (m0 : Msg) (u : Line) (hu : u ≠ []) (huw : u.all wordChar = true)
    (hnu : u.head? ≠ some '_')
    (k : Nat) (hinv : ∀ line, st.buf.get? k = some line → msgInv m0 u line) :
    ∀ line', stA.buf.get? k = some line' → msgInv m0 u line' := by
  intro line' hline'
  cases hf : findVarName m.message with
  | none =>
    have hid : stA = st := by
      unfold processMsg at h
      rw [hf] at h
      cases h
      rfl
    subst hid
    exact hinv line' hline'
  | some v =>
    by_cases hund : (v.head? == some '_') = true
    · have hid : stA = st := by
        unfold processMsg at h
        rw [hf] at h
        dsimp only at h
        rw [if_pos hund] at h
        cases h
        rfl
      subst hid
      exact hinv line' hline'
    · have hund2 : (v.head? == some '_') = false := by
        revert hund
        cases (v.head? == some '_') <;> simp
      obtain ⟨k0, line, hk0, hg0, hcase⟩ := processMsg_view st stA m v hf hund2 h
      rcases hcase with ⟨_, hstA⟩ | ⟨hne, hstA⟩
      · subst hstA
        exact hinv line' hline'
      · subst hstA
        by_cases hkk : k0 = k
        · subst hkk
          have hklt : k0 < st.buf.length := pyResolve_lt _ _ _ hk0
          have hset : (st.buf.set k0 (applyMsgToLine line v m.message)).get? k0 =
              some (applyMsgToLine line v m.message) := List.get?_set_eq_of_lt _ hklt
          rw [hset] at hline'
          have hl := Option.some.inj hline'
          have hvv := hgm v hf
          have hInv := msgInv_preserve m0 u hu huw hnu m v hvv.1 hvv.2 line (hinv line hg0)
          rw [hl] at hInv
          exact hInv
        · have hgne : (st.buf.set k0 (applyMsgToLine line v m.message)).get? k =
              st.buf.get? k := List.get?_set_ne _ _ hkk
          rw [hgne] at hline'
          exact hinv line' hline'

theorem foldlM_preserve (ms : List Msg) :
    ∀ st st' : St, (∀ m ∈ ms, goodM m) →
      List.foldlM processMsg st ms = .ok st' →
      ∀ (m0 : Msg) (u : Line), u ≠ [] → u.all wordChar = true → u.head? ≠ some '_' →
      ∀ k : Nat, (∀ line, st.buf.get? k = some line → msgInv m0 u line) →
        ∀ line', st'.buf.get? k = some line' → msgInv m0 u line' := by
  induction ms with
  | nil =>
    intro st st' _ h m0 u _ _ _ k hinv line' hl'
    cases h
    exact hinv line' hl'
  | cons m ms ih =>
    intro st st' hg h m0 u hu huw hnu k hinv line' hl'
    rw [List.foldlM_cons] at h
    cases hm : processMsg st m with
    | error e => rw [hm] at h; cases h
    | ok stA =>
      rw [hm] at h
      exact ih stA st' (fun m2 hm2 => hg m2 (List.mem_cons_of_mem _ hm2)) h m0 u hu huw
        hnu k
        (processMsg_preserve st stA m (hg m (List.mem_cons_self _ _)) hm m0 u hu huw hnu
          k hinv)
        line' hl'

theorem foldlM_establish (ms : List Msg) :
    ∀ st st' : St, (∀ m ∈ ms, goodM m) →
      List.foldlM processMsg st ms = .ok st' →
      ∀ m ∈ ms, ∀ v, findVarName m.message = some v → (v.head? == some '_') = false →
        (∃ k, pyResolve st'.buf.length (m.line - 1) = some k) ∧
        (∀ k, pyResolve st'.buf.length (m.line - 1) = some k →
          ∀ line', st'.buf.get? k = some line' → msgInv m v line') := by
  induction ms with
  | nil =>
    intro st st' _ _ m hm
    cases hm
  | cons m0 ms ih =>
    intro st st' hg h m hm v hf hu
    rw [List.foldlM_cons] at h
    cases hm0 : processMsg st m0 with
    | error e => rw [hm0] at h; cases h
    | ok stA =>
      rw [hm0] at h
      rcases List.mem_cons.mp hm with he | hmem
      · subst he
        have hgm := hg m (List.mem_cons_self _ _)
        obtain ⟨k0, line, hk0, hg0, _⟩ := processMsg_view st stA m v hf hu hm0
        have hlenA : stA.buf.length = st.buf.length := processMsg_length _ _ _ hm0
        have hlen2 : st'.buf.length = stA.buf.length := foldlM_processMsg_length ms stA st' h
        constructor
        · refine ⟨k0, ?_⟩
          rw [hlen2, hlenA]
          exact hk0
        · intro k hk line' hl'
          have hkk : k = k0 := by
            rw [hlen2, hlenA, hk0] at hk
            exact (Option.some.inj hk).symm
          subst hkk
          have hvv := hgm v hf
          have hnu : v.head? ≠ some '_' := by
            intro hq
            rw [hq] at hu
            simp at hu
          have hestA := processMsg_establish st stA m hm0 v hf hu hvv.1 hvv.2
          refine foldlM_preserve ms stA st'
            (fun m2 hm2 => hg m2 (List.mem_cons_of_mem _ hm2)) h
            m v hvv.1 hvv.2 hnu k ?_ line' hl'
          intro line1 hline1
          refine hestA k ?_ line1 hline1
          rw [hlenA]
          exact hk0
      · exact ih stA st' (fun m2 hm2 => hg m2 (List.mem_cons_of_mem _ hm2)) h m hmem v hf hu

theorem foldlM_pass2 (ms : List Msg) :
    ∀ (buf : List Line) (t0 : Nat), (∀ m ∈ ms, goodM m) →
      (∀ m ∈ ms, ∀ v, findVarName m.message = some v → (v.head? == some '_') = false →
        (∃ k, pyResolve buf.length (m.line - 1) = some k) ∧
        (∀ k, pyResolve buf.length (m.line - 1) = some k →
          ∀ line, buf.get? k = some line → msgInv m v line)) →
      List.foldlM processMsg ⟨buf, t0⟩ ms = .ok ⟨buf, t0⟩ := by
  induction ms with
  | nil => intro buf t0 _ _; rfl
  | cons m ms ih =>
    intro buf t0 hg hinv
    rw [List.foldlM_cons]
    have hstep : processMsg ⟨buf, t0⟩ m = .ok ⟨buf, t0⟩ := by
      unfold processMsg
      cases hf : findVarName m.message with
      | none => rfl
      | some v =>
        dsimp only
        by_cases hund : (v.head? == some '_') = true
        · rw [if_pos hund]
        · have hund2 : (v.head? == some '_') = false := by
            revert hund
            cases (v.head? == some '_') <;> simp
          rw [if_neg hund]
          obtain ⟨⟨k, hk⟩, hno⟩ := hinv m (List.mem_cons_self _ _) v hf hund2
          have hklt : k < buf.length := pyResolve_lt _ _ _ hk
          obtain ⟨line, hline⟩ : ∃ line, buf.get? k = some line :=
            ⟨buf.get ⟨k, hklt⟩, List.get?_eq_get hklt⟩
          have hpg : pyGet buf (m.line - 1) = some line := by
            unfold pyGet
            rw [hk]
            exact hline
          rw [hpg]
          dsimp only
          have hvv := hg m (List.mem_cons_self _ _) v hf
          have hid : applyMsgToLine line v m.message = line :=
            applyMsg_id_of_inv m v hvv.1 hvv.2 line (hno k hk line hline)
          rw [hid]
          simp
    rw [hstep]
    exact ih buf t0 (fun m2 hm2 => hg m2 (List.mem_cons_of_mem _ hm2))
      (fun m2 hm2 => hinv m2 (List.mem_cons_of_mem _ hm2))

/-- C4 amended: per-file idempotence holds for reports whose messages parse
to identifier-like names (nonempty, word characters only — every name real
ESLint emits): running the pass a second time on the output buffer with the
same messages returns the same buffer and adds zero fixes, whether or not
the catch-clause marker phrase appears in a message.  Moreover a diagnostic
whose variable name already starts with an underscore is always skipped
without modifying the buffer or the counter. -/
theorem C4_amended_idempotence :
    (∀ (lines : List Line) (msgs : List Msg) (lines' : List Line) (n : Nat),
      (∀ m ∈ msgs, goodM m) →
      processFile lines msgs 0 = .ok ⟨lines', n⟩ →
      processFile lines' msgs 0 = .ok ⟨lines', 0⟩) ∧
    (∀ (st : St) (m : Msg) (v : Line), findVarName m.message = some v →
      (v.head? == some '_') = true → processMsg st m = .ok st) := by
  constructor
  · intro lines msgs lines' n hg h
    unfold processFile at h ⊢
    have hgs : ∀ m ∈ sortDesc msgs, goodM m :=
      fun m hm => hg m ((sortDesc_perm msgs).mem_iff.mp hm)
    have hest := foldlM_establish (sortDesc msgs) ⟨lines, 0⟩ ⟨lines', n⟩ hgs h
    exact foldlM_pass2 (sortDesc msgs) lines' 0 hgs hest
  · intro st m v hf hu
    unfold processMsg
    rw [hf]
    dsimp only
    rw [if_pos hu]

/-- C4 amended, witness: a catch-clause fix is idempotent — the second pass
over the already-fixed buffer with the same marker-phrase message changes
nothing and counts zero fixes — and a concrete underscore-named diagnostic
is skipped. -/
theorem C4_amended_witness :
    processFile [("do catch (_err) done").toList]
      [⟨1, sq :: ("err").toList ++ sq :: (usedTail1 ++
        (". Allowed unused caught errors").toList)⟩] 0 =
      .ok ⟨[("do catch (_err) done").toList], 0⟩ ∧
    processMsg ⟨[("const x = 1;").toList], 0⟩
      ⟨1, sq :: ("_x").toList ++ sq :: usedTail1⟩ =
      .ok ⟨[("const x = 1;").toList], 0⟩ := by
  constructor
  · refine C4_amended_idempotence.1 [("do catch (err) done").toList]
      [⟨1, sq :: ("err").toList ++ sq :: (usedTail1 ++
        (". Allowed unused caught errors").toList)⟩]
      [("do catch (_err) done").toList] 1 ?_ rfl
    intro m hm
    rw [List.mem_singleton] at hm
    subst hm
    intro v hv
    have hveq : some (("err").toList) = some v := hv
    cases hveq
    exact ⟨by decide, by decide⟩
  · exact C4_amended_idempotence.2 ⟨[("const x = 1;").toList], 0⟩
      ⟨1, sq :: ("_x").toList ++ sq :: usedTail1⟩ (("_x").toList) rfl (by decide)

end FixUnused
